import Mathlib

/-!
Verification of the rb_lovely sorted-container core: an ordered unique set
(`SortedSet`) and a hash-keyed, value-ordered map (`SortedHash`) built over a
shared ordered index with insertion-sequence tie-breaking.  The C++
implementation (ext/rb_lovely) is not part of the staged sources — only the
Ruby documentation stubs and a small binding helper are — so the container
core below is modelled from the specification's own description of the data
model and operations, and the claims are settled against that model.
-/

namespace RbLovely

variable {κ α β : Type}

/-- Modelled from the spec: the comparator contract of section 6 — a
caller-supplied three-way comparator required to behave as a strict weak
ordering, the missing piece being the native comparator invocation in
ext/rb_lovely.  The fields are exactly the ordering laws the spec demands:
antisymmetry of the three-way result and transitivity of `lt`/`eq`. -/
structure LawfulCmp (cmp : α → α → Ordering) : Prop where
  symm : ∀ a b, cmp a b = (cmp b a).swap
  lt_trans : ∀ {a b c}, cmp a b = Ordering.lt → cmp b c = Ordering.lt → cmp a c = Ordering.lt
  lt_of_lt_of_eq : ∀ {a b c}, cmp a b = Ordering.lt → cmp b c = Ordering.eq → cmp a c = Ordering.lt
  lt_of_eq_of_lt : ∀ {a b c}, cmp a b = Ordering.eq → cmp b c = Ordering.lt → cmp a c = Ordering.lt
  eq_trans : ∀ {a b c}, cmp a b = Ordering.eq → cmp b c = Ordering.eq → cmp a c = Ordering.eq

/-- Natural-order comparator on `Nat`, standing in for Ruby's default
spaceship operator in concrete instantiations. -/
def natCmp (a b : Nat) : Ordering :=
  if a < b then Ordering.lt else if b < a then Ordering.gt else Ordering.eq

/-- Modelled from the spec: the first in-order element satisfying a predicate
(the early-exit in-order traversal used by `find_by_value` and
`remove_first_matching` of the missing OrderedIndex). -/
def findFirstP (p : β → Bool) : List β → Option β
  | [] => none
  | x :: xs => if p x then some x else findFirstP p xs

/-- Modelled from the spec: removal of the first in-order element satisfying a
predicate (`remove_first_matching` of the missing OrderedIndex). -/
def removeFirstP (p : β → Bool) : List β → List β
  | [] => []
  | x :: xs => if p x then xs else x :: removeFirstP p xs

/-- Modelled from the spec: one entry of the shared node pool — a (key, value)
pair together with the insertion sequence number assigned at creation, used
only to break order ties deterministically.  The set instantiates `κ` with
`Unit`. -/
structure Entry (κ α : Type) where
  key : κ
  value : α
  seq : Nat
deriving Repr, DecidableEq

/-- Modelled from the spec: the strict total order of the OrderedIndex —
primary key is the value under the caller comparator, tie-break is the
insertion sequence number, earlier insertion sorting first. -/
def entryLE (cmp : α → α → Ordering) (a b : Entry κ α) : Prop :=
  cmp a.value b.value = Ordering.lt ∨
    (cmp a.value b.value = Ordering.eq ∧ a.seq < b.seq)

instance (cmp : α → α → Ordering) : DecidableRel (@entryLE κ α cmp) := fun a b => by
  unfold entryLE
  infer_instance

/-- Modelled from the spec: OrderedIndex insertion — descend the in-order
sequence comparing by value then by sequence number; duplicates by value are
permitted since the sequence number disambiguates. -/
def ordInsert (cmp : α → α → Ordering) (e : Entry κ α) : List (Entry κ α) → List (Entry κ α)
  | [] => [e]
  | x :: xs =>
    match cmp e.value x.value with
    | Ordering.lt => e :: x :: xs
    | Ordering.eq => if e.seq < x.seq then e :: x :: xs else x :: ordInsert cmp e xs
    | Ordering.gt => x :: ordInsert cmp e xs

/-- Modelled from the spec: lookup of a node by its handle (sequence number)
in the node pool, the stable-handle dereference of the missing OrderedIndex. -/
def nodeFind (s : Nat) (l : List (Entry κ α)) : Option (Entry κ α) :=
  findFirstP (fun e => decide (e.seq = s)) l

/-- Modelled from the spec: OrderedIndex removal of the node with a given
handle (sequence number). -/
def ordRemove (s : Nat) (l : List (Entry κ α)) : List (Entry κ α) :=
  removeFirstP (fun e => decide (e.seq = s)) l

/-- Modelled from the spec: the map's hash-index lookup (key to node handle),
the O(1) hash probe of the missing KeyedOrderedMap. -/
def hashFind [DecidableEq κ] (l : List (κ × Nat)) (k : κ) : Option Nat :=
  (findFirstP (fun q => decide (q.1 = k)) l).map Prod.snd

/-- Modelled from the spec: deregistration of a key from the map's hash
index. -/
def hashRemove [DecidableEq κ] (l : List (κ × Nat)) (k : κ) : List (κ × Nat) :=
  removeFirstP (fun q => decide (q.1 = k)) l

/-- Modelled from the spec: in-place re-registration of an existing key's node
handle in the hash index when `set` updates a present key. -/
def hashUpdate [DecidableEq κ] : List (κ × Nat) → κ → Nat → List (κ × Nat)
  | [], _, _ => []
  | q :: rest, k, s => if q.1 = k then (k, s) :: rest else q :: hashUpdate rest k s

/-- Modelled from the spec: the KeyedOrderedMap (`RbLovely::SortedHash`) —
the in-order node sequence of the OrderedIndex, the hash index from keys to
node handles, and the monotone insertion-sequence counter.  The C++
implementation in ext/rb_lovely is missing from the staged sources. -/
structure SortedHash (κ α : Type) where
  nodes : List (Entry κ α)
  hashIndex : List (κ × Nat)
  nextSeq : Nat
deriving Repr, DecidableEq

namespace SortedHash

/-- Modelled from the spec: the freshly constructed empty map. -/
def empty : SortedHash κ α := ⟨[], [], 0⟩

/-- Modelled from the spec: `set(key, value)` (Ruby `[]=`) — if the key is
present, remove the existing node from the order index and re-insert the new
value under a fresh sequence number, updating the hash handle in place; if
absent, create a node with a fresh sequence number and register it in both
indices. -/
def set [DecidableEq κ] (cmp : α → α → Ordering) (h : SortedHash κ α) (k : κ) (v : α) :
    SortedHash κ α :=
  match hashFind h.hashIndex k with
  | some s =>
      ⟨ordInsert cmp ⟨k, v, h.nextSeq⟩ (ordRemove s h.nodes),
       hashUpdate h.hashIndex k h.nextSeq,
       h.nextSeq + 1⟩
  | none =>
      ⟨ordInsert cmp ⟨k, v, h.nextSeq⟩ h.nodes,
       (k, h.nextSeq) :: h.hashIndex,
       h.nextSeq + 1⟩

/-- Modelled from the spec: `get(key)` (Ruby `[]`) — hash lookup of the node
handle, then the value held by that node, or `none` when the key is absent. -/
def get [DecidableEq κ] (h : SortedHash κ α) (k : κ) : Option α :=
  match hashFind h.hashIndex k with
  | some s => (nodeFind s h.nodes).map Entry.value
  | none => none

/-- Modelled from the spec: `delete(key)` — hash lookup of the handle, then
removal from the order index and deregistration from the hash index as one
logical operation, returning the removed value or `none`. -/
def delete [DecidableEq κ] (h : SortedHash κ α) (k : κ) : Option α × SortedHash κ α :=
  match hashFind h.hashIndex k with
  | some s =>
      ((nodeFind s h.nodes).map Entry.value,
       ⟨ordRemove s h.nodes, hashRemove h.hashIndex k, h.nextSeq⟩)
  | none => (none, h)

/-- Modelled from the spec: `shift` — remove and return the first key-value
pair in value order, deregistering it from both indices, or signal empty. -/
def shift [DecidableEq κ] (h : SortedHash κ α) : Option (κ × α) × SortedHash κ α :=
  match h.nodes with
  | [] => (none, h)
  | e :: rest =>
      (some (e.key, e.value), ⟨rest, hashRemove h.hashIndex e.key, h.nextSeq⟩)

/-- Modelled from the spec: `pop` — remove and return the last key-value pair
in value order, deregistering it from both indices, or signal empty. -/
def pop [DecidableEq κ] (h : SortedHash κ α) : Option (κ × α) × SortedHash κ α :=
  match h.nodes.getLast? with
  | none => (none, h)
  | some e =>
      (some (e.key, e.value), ⟨h.nodes.dropLast, hashRemove h.hashIndex e.key, h.nextSeq⟩)

/-- Modelled from the spec: `clear` — empty both indices together. -/
def clear (h : SortedHash κ α) : SortedHash κ α := ⟨[], [], h.nextSeq⟩

/-- Modelled from the spec: in-order traversal of the map as the list of
key-value pairs (the `each` / `to_a` view). -/
def toList (h : SortedHash κ α) : List (κ × α) :=
  h.nodes.map (fun e => (e.key, e.value))

/-- Modelled from the spec: `length` — the number of live entries (the
binding helper setLength returns the container's size). -/
def length (h : SortedHash κ α) : Nat := h.nodes.length

/-- Modelled from the spec: `empty?`. -/
def emptyQ (h : SortedHash κ α) : Bool := h.nodes.isEmpty

/-- Modelled from the spec: `include?(key)` — the O(1) hash-index membership
probe (`contains` in the spec); its C++ body is missing from the staged
sources. -/
def includeQ [DecidableEq κ] (h : SortedHash κ α) (k : κ) : Bool :=
  (hashFind h.hashIndex k).isSome

/-- Ruby source (src/unnamed/part_000): `alias :has_key? :include?`. -/
def hasKeyQ [DecidableEq κ] : SortedHash κ α → κ → Bool := includeQ

/-- Ruby source (src/unnamed/part_000): `alias :key? :include?`. -/
def keyQ [DecidableEq κ] : SortedHash κ α → κ → Bool := includeQ

end SortedHash

/-- Modelled from the spec: the states of the map reachable from the empty
container through its public mutating operations. -/
inductive Reachable [DecidableEq κ] (cmp : α → α → Ordering) : SortedHash κ α → Prop
  | empty : Reachable cmp SortedHash.empty
  | set (k : κ) (v : α) {h : SortedHash κ α} :
      Reachable cmp h → Reachable cmp (h.set cmp k v)
  | del (k : κ) {h : SortedHash κ α} :
      Reachable cmp h → Reachable cmp (h.delete k).2
  | shift {h : SortedHash κ α} : Reachable cmp h → Reachable cmp h.shift.2
  | pop {h : SortedHash κ α} : Reachable cmp h → Reachable cmp h.pop.2
  | clear {h : SortedHash κ α} : Reachable cmp h → Reachable cmp h.clear

/-- Modelled from the spec: the dual-index synchronization invariant of
section 3 — fresh sequence numbers, duplicate-free sequence numbers and keys,
and the hash index and order index registering exactly the same live
entries. -/
structure SyncInv [DecidableEq κ] (h : SortedHash κ α) : Prop where
  seqLt : ∀ e ∈ h.nodes, e.seq < h.nextSeq
  seqNodup : (h.nodes.map Entry.seq).Nodup
  keysNodup : (h.nodes.map Entry.key).Nodup
  hkeysNodup : (h.hashIndex.map Prod.fst).Nodup
  syncB : ∀ e ∈ h.nodes, (e.key, e.seq) ∈ h.hashIndex
  syncF : ∀ q ∈ h.hashIndex, ∃ e ∈ h.nodes, e.key = q.1 ∧ e.seq = q.2
  len : h.hashIndex.length = h.nodes.length

/-- Modelled from the spec: the OrderedUniqueSet (`RbLovely::SortedSet`) — a
single OrderedIndex over value-only entries (`κ` is `Unit`) with a
comparator-equality uniqueness gate.  The C++ implementation in ext/rb_lovely
is missing from the staged sources. -/
structure SortedSet (α : Type) where
  nodes : List (Entry Unit α)
  nextSeq : Nat
deriving Repr, DecidableEq

namespace SortedSet

/-- Modelled from the spec: the freshly constructed empty set. -/
def empty : SortedSet α := ⟨[], 0⟩

/-- Modelled from the spec: `find_by_value` — the first (lowest-sequence)
member whose comparator-value equals the probe value. -/
def findByValue (cmp : α → α → Ordering) (s : SortedSet α) (v : α) : Option (Entry Unit α) :=
  findFirstP (fun e => decide (cmp e.value v = Ordering.eq)) s.nodes

/-- Modelled from the spec: set insertion (`add` / `<<`) — probe
`find_by_value` first; a comparator-equal member rejects the insertion with
no mutation, otherwise insert a fresh-sequence node into the order index. -/
def insert (cmp : α → α → Ordering) (s : SortedSet α) (v : α) : Bool × SortedSet α :=
  match s.findByValue cmp v with
  | some _ => (false, s)
  | none => (true, ⟨ordInsert cmp ⟨(), v, s.nextSeq⟩ s.nodes, s.nextSeq + 1⟩)

/-- Modelled from the spec: `delete(value)` — remove the first
comparator-equal member and return it, or return `none` leaving the set
unchanged. -/
def delete (cmp : α → α → Ordering) (s : SortedSet α) (v : α) : Option α × SortedSet α :=
  match s.findByValue cmp v with
  | some e =>
      (some e.value,
       ⟨removeFirstP (fun x => decide (cmp x.value v = Ordering.eq)) s.nodes, s.nextSeq⟩)
  | none => (none, s)

/-- Modelled from the spec: `reject_first!` (`remove_first_matching`) — an
early-exit in-order traversal stopping at the first predicate match, which is
then removed. -/
def rejectFirst (p : α → Bool) (s : SortedSet α) : Option α × SortedSet α :=
  match findFirstP (fun e => p e.value) s.nodes with
  | some e =>
      (some e.value, ⟨removeFirstP (fun e => p e.value) s.nodes, s.nextSeq⟩)
  | none => (none, s)

/-- Modelled from the spec: `shift` — remove and return the first member in
comparator order, or signal empty. -/
def shift (s : SortedSet α) : Option α × SortedSet α :=
  match s.nodes with
  | [] => (none, s)
  | e :: rest => (some e.value, ⟨rest, s.nextSeq⟩)

/-- Modelled from the spec: `pop` — remove and return the last member in
comparator order, or signal empty. -/
def pop (s : SortedSet α) : Option α × SortedSet α :=
  match s.nodes.getLast? with
  | none => (none, s)
  | some e => (some e.value, ⟨s.nodes.dropLast, s.nextSeq⟩)

/-- Modelled from the spec: in-order traversal of the set (`each` / `to_a`). -/
def toList (s : SortedSet α) : List α := s.nodes.map Entry.value

/-- Modelled from the spec: `length` — the number of live members (the
binding helper setLength returns the container's size). -/
def length (s : SortedSet α) : Nat := s.nodes.length

/-- Modelled from the spec: `empty?`. -/
def emptyQ (s : SortedSet α) : Bool := s.nodes.isEmpty

/-- Modelled from the spec: construction of a set from an array of values
(`SortedSet.new [3,1,2]` / `SortedSet [3,1,2]`), inserting each in turn. -/
def fromList (cmp : α → α → Ordering) (vs : List α) : SortedSet α :=
  List.foldl (fun s v => (insert cmp s v).2) empty vs

end SortedSet

/-- Modelled from the spec: the invariant of a reachable set — in-order nodes
sorted by the OrderedIndex total order, no two comparator-equal members, and
sequence numbers below the counter. -/
structure SetInv (cmp : α → α → Ordering) (s : SortedSet α) : Prop where
  sorted : s.nodes.Pairwise (entryLE cmp)
  noEq : s.nodes.Pairwise (fun a b => cmp a.value b.value ≠ Ordering.eq)
  seqLt : ∀ e ∈ s.nodes, e.seq < s.nextSeq

/-- Modelled from the spec: repeated application of the map's `shift` (with a
fuel bound), collecting the drained key-value pairs and the final state. -/
def drainShiftAux [DecidableEq κ] : Nat → SortedHash κ α → List (κ × α) × SortedHash κ α
  | 0, h => ([], h)
  | Nat.succ n, h =>
    match h.shift with
    | (none, _) => ([], h)
    | (some p, h2) =>
      let r := drainShiftAux n h2
      (p :: r.1, r.2)

/-- Modelled from the spec: draining the whole map front-to-back by repeated
`shift`. -/
def SortedHash.drainShift [DecidableEq κ] (h : SortedHash κ α) :
    List (κ × α) × SortedHash κ α :=
  drainShiftAux h.length h

/-- Modelled from the spec: repeated application of the map's `pop` (with a
fuel bound), collecting the drained key-value pairs and the final state. -/
def drainPopAux [DecidableEq κ] : Nat → SortedHash κ α → List (κ × α) × SortedHash κ α
  | 0, h => ([], h)
  | Nat.succ n, h =>
    match h.pop with
    | (none, _) => ([], h)
    | (some p, h2) =>
      let r := drainPopAux n h2
      (p :: r.1, r.2)

/-- Modelled from the spec: draining the whole map back-to-front by repeated
`pop`. -/
def SortedHash.drainPop [DecidableEq κ] (h : SortedHash κ α) :
    List (κ × α) × SortedHash κ α :=
  drainPopAux h.length h

/-- Modelled from the spec: repeated application of the set's `shift` (with a
fuel bound). -/
def drainShiftSetAux : Nat → SortedSet α → List α × SortedSet α
  | 0, s => ([], s)
  | Nat.succ n, s =>
    match s.shift with
    | (none, _) => ([], s)
    | (some v, s2) =>
      let r := drainShiftSetAux n s2
      (v :: r.1, r.2)

/-- Modelled from the spec: draining the whole set front-to-back by repeated
`shift`. -/
def SortedSet.drainShift (s : SortedSet α) : List α × SortedSet α :=
  drainShiftSetAux s.length s

/-- Modelled from the spec: repeated application of the set's `pop` (with a
fuel bound). -/
def drainPopSetAux : Nat → SortedSet α → List α × SortedSet α
  | 0, s => ([], s)
  | Nat.succ n, s =>
    match s.pop with
    | (none, _) => ([], s)
    | (some v, s2) =>
      let r := drainPopSetAux n s2
      (v :: r.1, r.2)

/-- Modelled from the spec: draining the whole set back-to-front by repeated
`pop`. -/
def SortedSet.drainPop (s : SortedSet α) : List α × SortedSet α :=
  drainPopSetAux s.length s

/-- Modelled from the spec: a whole sequence of `set(key, value)` calls
applied in order. -/
def applySets [DecidableEq κ] (cmp : α → α → Ordering) (h : SortedHash κ α) :
    List (κ × α) → SortedHash κ α
  | [] => h
  | p :: ps => applySets cmp (h.set cmp p.1 p.2) ps

/-- Value passed by the last `set` call for a key within a call sequence, or
`none` when the sequence never sets that key. -/
def lastValue [DecidableEq κ] (k : κ) : List (κ × α) → Option α
  | [] => none
  | p :: ps =>
    match lastValue k ps with
    | some v => some v
    | none => if p.1 = k then some p.2 else none

/-! ### Comparator lemmas -/

theorem LawfulCmp.eq_symm {cmp : α → α → Ordering} (hL : LawfulCmp cmp) {a b : α}
    (h : cmp a b = Ordering.eq) : cmp b a = Ordering.eq := by
  rw [hL.symm b a, h]
  rfl

theorem LawfulCmp.lt_of_gt {cmp : α → α → Ordering} (hL : LawfulCmp cmp) {a b : α}
    (h : cmp a b = Ordering.gt) : cmp b a = Ordering.lt := by
  rw [hL.symm b a, h]
  rfl

theorem LawfulCmp.gt_of_lt {cmp : α → α → Ordering} (hL : LawfulCmp cmp) {a b : α}
    (h : cmp a b = Ordering.lt) : cmp b a = Ordering.gt := by
  rw [hL.symm b a, h]
  rfl

theorem natCmp_lt_iff {a b : Nat} : natCmp a b = Ordering.lt ↔ a < b := by
  unfold natCmp
  by_cases h1 : a < b
  · simp [h1]
  · by_cases h2 : b < a <;> simp [h1, h2]

theorem natCmp_gt_iff {a b : Nat} : natCmp a b = Ordering.gt ↔ b < a := by
  unfold natCmp
  by_cases h1 : a < b
  · simp [h1]; omega
  · by_cases h2 : b < a <;> simp [h1, h2]

theorem natCmp_eq_iff {a b : Nat} : natCmp a b = Ordering.eq ↔ a = b := by
  unfold natCmp
  by_cases h1 : a < b
  · simp [h1]; omega
  · by_cases h2 : b < a <;> simp [h1, h2] <;> omega

theorem lawful_natCmp : LawfulCmp natCmp := by
  refine ⟨?_, ?_, ?_, ?_, ?_⟩
  · intro a b
    unfold natCmp
    rcases Nat.lt_trichotomy a b with h | h | h
    · rw [if_pos h, if_neg (Nat.lt_asymm h), if_pos h]
      rfl
    · subst h
      rw [if_neg (Nat.lt_irrefl a), if_neg (Nat.lt_irrefl a)]
      rfl
    · rw [if_neg (Nat.lt_asymm h), if_pos h, if_pos h]
      rfl
  · intro a b c hab hbc
    rw [natCmp_lt_iff] at hab hbc ⊢
    omega
  · intro a b c hab hbc
    rw [natCmp_lt_iff] at hab ⊢
    rw [natCmp_eq_iff] at hbc
    omega
  · intro a b c hab hbc
    rw [natCmp_eq_iff] at hab
    rw [natCmp_lt_iff] at hbc ⊢
    omega
  · intro a b c hab hbc
    rw [natCmp_eq_iff] at hab hbc ⊢
    omega

/-! ### Lemmas about the first-match primitives -/

theorem findFirstP_eq_none_iff {p : β → Bool} {l : List β} :
    findFirstP p l = none ↔ ∀ x ∈ l, p x = false := by
  induction l with
  | nil => simp [findFirstP]
  | cons x xs ih =>
    simp only [findFirstP]
    by_cases h : p x = true
    · simp [h]
    · have h' : p x = false := by revert h; cases p x <;> simp
      simp [h', ih]

theorem findFirstP_mem {p : β → Bool} {l : List β} {x : β} (h : findFirstP p l = some x) :
    x ∈ l ∧ p x = true := by
  induction l with
  | nil => simp [findFirstP] at h
  | cons y ys ih =>
    simp only [findFirstP] at h
    by_cases hy : p y = true
    · rw [if_pos hy] at h
      injection h with h
      subst h
      exact ⟨List.mem_cons_self y ys, hy⟩
    · rw [if_neg hy] at h
      rcases ih h with ⟨h1, h2⟩
      exact ⟨List.mem_cons_of_mem y h1, h2⟩

theorem findFirstP_isSome_iff {p : β → Bool} {l : List β} :
    (findFirstP p l).isSome = true ↔ ∃ x ∈ l, p x = true := by
  induction l with
  | nil => simp [findFirstP]
  | cons y ys ih =>
    simp only [findFirstP]
    by_cases hy : p y = true
    · simp [hy]
    · have hy' : p y = false := by revert hy; cases p y <;> simp
      simp [hy', ih]

theorem findFirstP_eq_of_unique {p : β → Bool} {l : List β} {x : β} (hx : x ∈ l)
    (hp : p x = true) (hu : ∀ y ∈ l, p y = true → y = x) : findFirstP p l = some x := by
  induction l with
  | nil => cases hx
  | cons y ys ih =>
    simp only [findFirstP]
    by_cases hy : p y = true
    · rw [if_pos hy, hu y (List.mem_cons_self y ys) hy]
    · rw [if_neg hy]
      rcases List.mem_cons.1 hx with rfl | hx2
      · exact absurd hp hy
      · exact ih hx2 (fun z hz hpz => hu z (List.mem_cons_of_mem y hz) hpz)

theorem findFirstP_split {p : β → Bool} {l : List β} {x : β} (h : findFirstP p l = some x) :
    ∃ l₁ l₂, l = l₁ ++ x :: l₂ ∧ (∀ y ∈ l₁, p y = false) ∧
      removeFirstP p l = l₁ ++ l₂ := by
  induction l with
  | nil => simp [findFirstP] at h
  | cons y ys ih =>
    simp only [findFirstP] at h
    by_cases hy : p y = true
    · rw [if_pos hy] at h
      injection h with h
      subst h
      exact ⟨[], ys, rfl, by simp, by simp [removeFirstP, hy]⟩
    · rw [if_neg hy] at h
      rcases ih h with ⟨l₁, l₂, rfl, h1, h2⟩
      refine ⟨y :: l₁, l₂, rfl, ?_, ?_⟩
      · intro z hz
        rcases List.mem_cons.1 hz with rfl | hz2
        · revert hy; cases p z <;> simp
        · exact h1 z hz2
      · simp only [removeFirstP, if_neg hy, h2, List.cons_append]

theorem removeFirstP_eq_self {p : β → Bool} {l : List β} (h : findFirstP p l = none) :
    removeFirstP p l = l := by
  induction l with
  | nil => rfl
  | cons y ys ih =>
    simp only [findFirstP] at h
    by_cases hy : p y = true
    · rw [if_pos hy] at h; cases h
    · rw [if_neg hy] at h
      simp [removeFirstP, hy, ih h]

theorem removeFirstP_sublist (p : β → Bool) (l : List β) : (removeFirstP p l).Sublist l := by
  induction l with
  | nil => simp [removeFirstP]
  | cons y ys ih =>
    simp only [removeFirstP]
    by_cases hy : p y = true
    · rw [if_pos hy]
      exact List.sublist_cons_self y ys
    · rw [if_neg hy]
      exact ih.cons₂ y

theorem removeFirstP_perm {p : β → Bool} {l : List β} {x : β} (h : findFirstP p l = some x) :
    l.Perm (x :: removeFirstP p l) := by
  rcases findFirstP_split h with ⟨l₁, l₂, rfl, _, h2⟩
  rw [h2]
  exact List.perm_middle

/-! ### Lemmas about the ordered index -/

theorem entryLE_trans {cmp : α → α → Ordering} (hL : LawfulCmp cmp) {a b c : Entry κ α}
    (hab : entryLE cmp a b) (hbc : entryLE cmp b c) : entryLE cmp a c := by
  rcases hab with h1 | ⟨h1, s1⟩ <;> rcases hbc with h2 | ⟨h2, s2⟩
  · exact Or.inl (hL.lt_trans h1 h2)
  · exact Or.inl (hL.lt_of_lt_of_eq h1 h2)
  · exact Or.inl (hL.lt_of_eq_of_lt h1 h2)
  · exact Or.inr ⟨hL.eq_trans h1 h2, Nat.lt_trans s1 s2⟩

theorem ordInsert_perm (cmp : α → α → Ordering) (e : Entry κ α) (l : List (Entry κ α)) :
    (ordInsert cmp e l).Perm (e :: l) := by
  induction l with
  | nil => exact List.Perm.refl _
  | cons x xs ih =>
    cases hc : cmp e.value x.value with
    | lt =>
      simp only [ordInsert, hc]
      exact List.Perm.refl _
    | eq =>
      by_cases hs : e.seq < x.seq
      · simp only [ordInsert, hc, if_pos hs]
        exact List.Perm.refl _
      · simp only [ordInsert, hc, if_neg hs]
        exact (ih.cons x).trans (List.Perm.swap e x xs)
    | gt =>
      simp only [ordInsert, hc]
      exact (ih.cons x).trans (List.Perm.swap e x xs)

theorem ordInsert_pairwise {cmp : α → α → Ordering} (hL : LawfulCmp cmp) {e : Entry κ α}
    {l : List (Entry κ α)} (hl : l.Pairwise (entryLE cmp)) (hf : ∀ x ∈ l, x.seq < e.seq) :
    (ordInsert cmp e l).Pairwise (entryLE cmp) := by
  induction l with
  | nil => simp [ordInsert]
  | cons x xs ih =>
    rcases List.pairwise_cons.1 hl with ⟨hx, hxs⟩
    cases hc : cmp e.value x.value with
    | lt =>
      simp only [ordInsert, hc]
      refine List.Pairwise.cons ?_ hl
      intro y hy
      rcases List.mem_cons.1 hy with rfl | hy2
      · exact Or.inl hc
      · exact entryLE_trans hL (Or.inl hc) (hx y hy2)
    | eq =>
      have hs : ¬ e.seq < x.seq := Nat.not_lt.2 (Nat.le_of_lt (hf x (List.mem_cons_self x xs)))
      simp only [ordInsert, hc, if_neg hs]
      refine List.Pairwise.cons ?_ (ih hxs (fun y hy => hf y (List.mem_cons_of_mem x hy)))
      intro y hy
      have hy2 := (ordInsert_perm cmp e xs).mem_iff.1 hy
      rcases List.mem_cons.1 hy2 with rfl | hy3
      · exact Or.inr ⟨hL.eq_symm hc, hf x (List.mem_cons_self x xs)⟩
      · exact hx y hy3
    | gt =>
      simp only [ordInsert, hc]
      refine List.Pairwise.cons ?_ (ih hxs (fun y hy => hf y (List.mem_cons_of_mem x hy)))
      intro y hy
      have hy2 := (ordInsert_perm cmp e xs).mem_iff.1 hy
      rcases List.mem_cons.1 hy2 with rfl | hy3
      · exact Or.inl (hL.lt_of_gt hc)
      · exact hx y hy3

theorem ordInsert_tier {cmp : α → α → Ordering} (hL : LawfulCmp cmp) {e : Entry κ α}
    {l : List (Entry κ α)} (hl : l.Pairwise (entryLE cmp)) (hf : ∀ x ∈ l, x.seq < e.seq) :
    ∃ l₁ l₂, ordInsert cmp e l = l₁ ++ e :: l₂ ∧ l = l₁ ++ l₂ ∧
      ∀ x ∈ l₂, cmp e.value x.value = Ordering.lt := by
  induction l with
  | nil => exact ⟨[], [], rfl, rfl, by simp⟩
  | cons x xs ih =>
    rcases List.pairwise_cons.1 hl with ⟨hx, hxs⟩
    cases hc : cmp e.value x.value with
    | lt =>
      refine ⟨[], x :: xs, by simp [ordInsert, hc], rfl, ?_⟩
      intro y hy
      rcases List.mem_cons.1 hy with rfl | hy2
      · exact hc
      · rcases hx y hy2 with h | ⟨h, _⟩
        · exact hL.lt_trans hc h
        · exact hL.lt_of_lt_of_eq hc h
    | eq =>
      have hs : ¬ e.seq < x.seq := Nat.not_lt.2 (Nat.le_of_lt (hf x (List.mem_cons_self x xs)))
      rcases ih hxs (fun y hy => hf y (List.mem_cons_of_mem x hy)) with ⟨l₁, l₂, h1, h2, h3⟩
      exact ⟨x :: l₁, l₂, by simp [ordInsert, hc, if_neg hs, h1], by simp [h2], h3⟩
    | gt =>
      rcases ih hxs (fun y hy => hf y (List.mem_cons_of_mem x hy)) with ⟨l₁, l₂, h1, h2, h3⟩
      exact ⟨x :: l₁, l₂, by simp [ordInsert, hc, h1], by simp [h2], h3⟩

theorem pairwise_ordInsert_of_rel {R : Entry κ α → Entry κ α → Prop}
    {cmp : α → α → Ordering} {e : Entry κ α} {l : List (Entry κ α)}
    (hl : l.Pairwise R) (h1 : ∀ x ∈ l, R e x) (h2 : ∀ x ∈ l, R x e) :
    (ordInsert cmp e l).Pairwise R := by
  induction l with
  | nil => simp [ordInsert]
  | cons x xs ih =>
    rcases List.pairwise_cons.1 hl with ⟨hx, hxs⟩
    have ih2 := ih hxs (fun y hy => h1 y (List.mem_cons_of_mem x hy))
      (fun y hy => h2 y (List.mem_cons_of_mem x hy))
    have hcont : (x :: ordInsert cmp e xs).Pairwise R := by
      refine List.Pairwise.cons ?_ ih2
      intro y hy
      have hy2 := (ordInsert_perm cmp e xs).mem_iff.1 hy
      rcases List.mem_cons.1 hy2 with rfl | hy3
      · exact h2 x (List.mem_cons_self x xs)
      · exact hx y hy3
    cases hc : cmp e.value x.value with
    | lt =>
      simp only [ordInsert, hc]
      exact List.Pairwise.cons h1 hl
    | eq =>
      by_cases hs : e.seq < x.seq
      · simp only [ordInsert, hc, if_pos hs]
        exact List.Pairwise.cons h1 hl
      · simp only [ordInsert, hc, if_neg hs]
        exact hcont
    | gt =>
      simp only [ordInsert, hc]
      exact hcont

/-! ### Lemmas about the hash index and handle lookups -/

theorem hashFind_eq_none_iff [DecidableEq κ] {l : List (κ × Nat)} {k : κ} :
    hashFind l k = none ↔ ∀ q ∈ l, q.1 ≠ k := by
  unfold hashFind
  rw [Option.map_eq_none', findFirstP_eq_none_iff]
  constructor
  · intro h q hq
    simpa using h q hq
  · intro h q hq
    simpa using h q hq

theorem hashFind_eq_some_mem [DecidableEq κ] {l : List (κ × Nat)} {k : κ} {s : Nat}
    (h : hashFind l k = some s) : (k, s) ∈ l := by
  unfold hashFind at h
  cases hfp : findFirstP (fun q => decide (q.1 = k)) l with
  | none => rw [hfp] at h; cases h
  | some q =>
    rw [hfp] at h
    simp only [Option.map_some'] at h
    injection h with h2
    rcases findFirstP_mem hfp with ⟨hmem, hp⟩
    have hk : q.1 = k := by simpa using hp
    cases q with
    | mk a b =>
      simp only at hk h2
      subst hk
      subst h2
      exact hmem

theorem hashFindP_of_mem_nodup [DecidableEq κ] {l : List (κ × Nat)} {k : κ} {s : Nat}
    (hnd : (l.map Prod.fst).Nodup) (hm : (k, s) ∈ l) :
    findFirstP (fun q => decide (q.1 = k)) l = some (k, s) := by
  apply findFirstP_eq_of_unique hm (by simp)
  intro y hy hpy
  have hk : y.1 = k := by simpa using hpy
  exact List.inj_on_of_nodup_map hnd hy hm hk

theorem hashFind_of_mem_nodup [DecidableEq κ] {l : List (κ × Nat)} {k : κ} {s : Nat}
    (hnd : (l.map Prod.fst).Nodup) (hm : (k, s) ∈ l) : hashFind l k = some s := by
  unfold hashFind
  rw [hashFindP_of_mem_nodup hnd hm]
  rfl

theorem hashFind_isSome_of_mem [DecidableEq κ] {l : List (κ × Nat)} {k : κ} {s : Nat}
    (hm : (k, s) ∈ l) : (hashFind l k).isSome = true := by
  unfold hashFind
  rw [Option.isSome_map']
  rw [findFirstP_isSome_iff]
  exact ⟨(k, s), hm, by simp⟩

theorem hashRemove_perm [DecidableEq κ] {l : List (κ × Nat)} {k : κ} {s : Nat}
    (hnd : (l.map Prod.fst).Nodup) (hm : (k, s) ∈ l) :
    l.Perm ((k, s) :: hashRemove l k) :=
  removeFirstP_perm (hashFindP_of_mem_nodup hnd hm)

theorem hashRemove_sublist [DecidableEq κ] (l : List (κ × Nat)) (k : κ) :
    (hashRemove l k).Sublist l :=
  removeFirstP_sublist _ _

theorem hashRemove_eq_self [DecidableEq κ] {l : List (κ × Nat)} {k : κ}
    (h : hashFind l k = none) : hashRemove l k = l := by
  unfold hashFind at h
  rw [Option.map_eq_none'] at h
  exact removeFirstP_eq_self h

theorem nodeFind_mem {s : Nat} {l : List (Entry κ α)} {e : Entry κ α}
    (h : nodeFind s l = some e) : e ∈ l ∧ e.seq = s := by
  rcases findFirstP_mem h with ⟨h1, h2⟩
  exact ⟨h1, by simpa using h2⟩

theorem nodeFind_of_mem_nodup {s : Nat} {l : List (Entry κ α)} {e : Entry κ α}
    (hnd : (l.map Entry.seq).Nodup) (he : e ∈ l) (hs : e.seq = s) : nodeFind s l = some e := by
  apply findFirstP_eq_of_unique he (by simp [hs])
  intro y hy hpy
  have hy2 : y.seq = s := by simpa using hpy
  exact List.inj_on_of_nodup_map hnd hy he (by rw [hy2, hs])

theorem ordRemove_perm {s : Nat} {l : List (Entry κ α)} {e : Entry κ α}
    (h : nodeFind s l = some e) : l.Perm (e :: ordRemove s l) :=
  removeFirstP_perm h

theorem ordRemove_sublist (s : Nat) (l : List (Entry κ α)) : (ordRemove s l).Sublist l :=
  removeFirstP_sublist _ _

theorem ordRemove_eq_self {s : Nat} {l : List (Entry κ α)}
    (h : nodeFind s l = none) : ordRemove s l = l :=
  removeFirstP_eq_self h

theorem hashUpdate_keys [DecidableEq κ] (l : List (κ × Nat)) (k : κ) (s : Nat) :
    (hashUpdate l k s).map Prod.fst = l.map Prod.fst := by
  induction l with
  | nil => rfl
  | cons q rest ih =>
    by_cases hq : q.1 = k
    · simp [hashUpdate, hq]
    · simp [hashUpdate, hq, ih]

theorem hashUpdate_length [DecidableEq κ] (l : List (κ × Nat)) (k : κ) (s : Nat) :
    (hashUpdate l k s).length = l.length := by
  have := congrArg List.length (hashUpdate_keys l k s)
  simpa using this

theorem hashUpdate_mem_of_ne [DecidableEq κ] {l : List (κ × Nat)} {q : κ × Nat} {k : κ}
    {s : Nat} (hq : q ∈ l) (hne : q.1 ≠ k) : q ∈ hashUpdate l k s := by
  induction l with
  | nil => cases hq
  | cons r rest ih =>
    rcases List.mem_cons.1 hq with rfl | hq2
    · simp only [hashUpdate, if_neg (by exact fun h => hne h)]
      exact List.mem_cons_self q _
    · by_cases hr : r.1 = k
      · simp only [hashUpdate, if_pos hr]
        exact List.mem_cons_of_mem _ hq2
      · simp only [hashUpdate, if_neg hr]
        exact List.mem_cons_of_mem _ (ih hq2)

theorem hashUpdate_self_mem [DecidableEq κ] {l : List (κ × Nat)} {k : κ} {s0 : Nat}
    (hm : (k, s0) ∈ l) (s : Nat) : (k, s) ∈ hashUpdate l k s := by
  induction l with
  | nil => cases hm
  | cons r rest ih =>
    by_cases hr : r.1 = k
    · simp only [hashUpdate, if_pos hr]
      exact List.mem_cons_self _ _
    · simp only [hashUpdate, if_neg hr]
      rcases List.mem_cons.1 hm with h | h
      · exact absurd (by rw [← h]) hr
      · exact List.mem_cons_of_mem _ (ih h)

theorem hashUpdate_cons_pos [DecidableEq κ] {r : κ × Nat} {rest : List (κ × Nat)} {k : κ}
    {s : Nat} (h : r.1 = k) : hashUpdate (r :: rest) k s = (k, s) :: rest := by
  simp [hashUpdate, h]

theorem hashUpdate_cons_neg [DecidableEq κ] {r : κ × Nat} {rest : List (κ × Nat)} {k : κ}
    {s : Nat} (h : ¬ r.1 = k) : hashUpdate (r :: rest) k s = r :: hashUpdate rest k s := by
  simp [hashUpdate, h]

theorem hashFind_cons_pos [DecidableEq κ] {r : κ × Nat} {rest : List (κ × Nat)} {k : κ}
    (h : r.1 = k) : hashFind (r :: rest) k = some r.2 := by
  simp [hashFind, findFirstP, h]

theorem hashFind_cons_neg [DecidableEq κ] {r : κ × Nat} {rest : List (κ × Nat)} {k : κ}
    (h : ¬ r.1 = k) : hashFind (r :: rest) k = hashFind rest k := by
  simp [hashFind, findFirstP, h]

theorem hashUpdate_mem_inv [DecidableEq κ] {l : List (κ × Nat)} {q : κ × Nat} {k : κ}
    {s : Nat} (hnd : (l.map Prod.fst).Nodup) (hq : q ∈ hashUpdate l k s) :
    q = (k, s) ∨ (q ∈ l ∧ q.1 ≠ k) := by
  induction l with
  | nil => cases hq
  | cons r rest ih =>
    have hnd2 : ¬ r.1 ∈ rest.map Prod.fst ∧ (rest.map Prod.fst).Nodup := by
      rw [List.map_cons, List.nodup_cons] at hnd
      exact hnd
    by_cases hr : r.1 = k
    · rw [hashUpdate_cons_pos hr] at hq
      rcases List.mem_cons.1 hq with rfl | hq2
      · exact Or.inl rfl
      · right
        refine ⟨List.mem_cons_of_mem _ hq2, ?_⟩
        intro hk
        have hq3 : q.1 ∈ rest.map Prod.fst := List.mem_map_of_mem Prod.fst hq2
        rw [hk, ← hr] at hq3
        exact hnd2.1 hq3
    · rw [hashUpdate_cons_neg hr] at hq
      rcases List.mem_cons.1 hq with rfl | hq2
      · exact Or.inr ⟨List.mem_cons_self _ _, hr⟩
      · rcases ih hnd2.2 hq2 with h | ⟨h1, h2⟩
        · exact Or.inl h
        · exact Or.inr ⟨List.mem_cons_of_mem _ h1, h2⟩

theorem hashFind_hashUpdate_self [DecidableEq κ] {l : List (κ × Nat)} {k : κ} {s0 : Nat}
    (h : hashFind l k = some s0) (s : Nat) : hashFind (hashUpdate l k s) k = some s := by
  have hm := hashFind_eq_some_mem h
  clear h
  induction l with
  | nil => cases hm
  | cons r rest ih =>
    by_cases hr : r.1 = k
    · rw [hashUpdate_cons_pos hr, hashFind_cons_pos rfl]
    · rw [hashUpdate_cons_neg hr, hashFind_cons_neg hr]
      rcases List.mem_cons.1 hm with hh | hh
      · exact absurd (by rw [← hh]) hr
      · exact ih hh

theorem hashFind_hashUpdate_ne [DecidableEq κ] {l : List (κ × Nat)} {k k2 : κ} {s : Nat}
    (hne : k2 ≠ k) : hashFind (hashUpdate l k2 s) k = hashFind l k := by
  induction l with
  | nil => rfl
  | cons r rest ih =>
    by_cases hr : r.1 = k2
    · rw [hashUpdate_cons_pos hr]
      have hrk : ¬ r.1 = k := fun h => hne (hr.symm.trans h)
      rw [hashFind_cons_neg (show ¬ ((k2, s) : κ × Nat).1 = k from hne),
        hashFind_cons_neg hrk]
    · rw [hashUpdate_cons_neg hr]
      by_cases hrk : r.1 = k
      · rw [hashFind_cons_pos hrk, hashFind_cons_pos hrk]
      · rw [hashFind_cons_neg hrk, hashFind_cons_neg hrk, ih]

/-! ### Preservation of the dual-index synchronization invariant -/

theorem syncInv_empty [DecidableEq κ] : SyncInv (SortedHash.empty : SortedHash κ α) := by
  constructor <;> simp [SortedHash.empty]

theorem seq_fresh [DecidableEq κ] {h : SortedHash κ α} (hI : SyncInv h) :
    ¬ h.nextSeq ∈ h.nodes.map Entry.seq := by
  intro hc
  rcases List.mem_map.1 hc with ⟨e, he, hs⟩
  have hlt := hI.seqLt e he
  rw [hs] at hlt
  exact Nat.lt_irrefl _ hlt

theorem key_absent_nodes [DecidableEq κ] {h : SortedHash κ α} (hI : SyncInv h) {k : κ}
    (hfk : hashFind h.hashIndex k = none) : ∀ e ∈ h.nodes, e.key ≠ k := by
  intro e he hk
  have hmem := hI.syncB e he
  rw [hk] at hmem
  have hsome := hashFind_isSome_of_mem hmem
  rw [hfk] at hsome
  simp at hsome

theorem syncInv_removed [DecidableEq κ] {h : SortedHash κ α} (hI : SyncInv h)
    {e0 : Entry κ α} {R : List (Entry κ α)}
    (hperm : h.nodes.Perm (e0 :: R)) (hsub : List.Sublist R h.nodes) :
    SyncInv (⟨R, hashRemove h.hashIndex e0.key, h.nextSeq⟩ : SortedHash κ α) := by
  have he0 : e0 ∈ h.nodes := hperm.mem_iff.2 (List.mem_cons_self _ _)
  have hmemIdx : (e0.key, e0.seq) ∈ h.hashIndex := hI.syncB e0 he0
  have hpermH : h.hashIndex.Perm ((e0.key, e0.seq) :: hashRemove h.hashIndex e0.key) :=
    hashRemove_perm hI.hkeysNodup hmemIdx
  have hHRsub := hashRemove_sublist h.hashIndex e0.key
  have hkeysHR : ¬ e0.key ∈ (hashRemove h.hashIndex e0.key).map Prod.fst := by
    have h1 := (hpermH.map Prod.fst).nodup_iff.1 hI.hkeysNodup
    rw [List.map_cons] at h1
    exact (List.nodup_cons.1 h1).1
  have hnodesN : h.nodes.Nodup := hI.seqNodup.of_map Entry.seq
  have he0R : ¬ e0 ∈ R := by
    have h1 := hperm.nodup_iff.1 hnodesN
    exact (List.nodup_cons.1 h1).1
  constructor
  · intro e he
    exact hI.seqLt e (hsub.subset he)
  · exact hI.seqNodup.sublist (hsub.map Entry.seq)
  · exact hI.keysNodup.sublist (hsub.map Entry.key)
  · exact hI.hkeysNodup.sublist (hHRsub.map Prod.fst)
  · intro e he
    have heN : e ∈ h.nodes := hsub.subset he
    have hpair := hI.syncB e heN
    have hpair2 := hpermH.mem_iff.1 hpair
    rcases List.mem_cons.1 hpair2 with heq | hmem2
    · have hseq : e.seq = e0.seq := congrArg Prod.snd heq
      have heeq : e = e0 := List.inj_on_of_nodup_map hI.seqNodup heN he0 hseq
      rw [heeq] at he
      exact absurd he he0R
    · exact hmem2
  · intro q hq
    have hqH : q ∈ h.hashIndex := hHRsub.subset hq
    rcases hI.syncF q hqH with ⟨e, he, hk, hs⟩
    have he2 := hperm.mem_iff.1 he
    rcases List.mem_cons.1 he2 with rfl | heR
    · exfalso
      refine hkeysHR ?_
      have hmm : q.1 ∈ (hashRemove h.hashIndex e.key).map Prod.fst :=
        List.mem_map_of_mem Prod.fst hq
      rw [← hk] at hmm
      exact hmm
    · exact ⟨e, heR, hk, hs⟩
  · have h1 := hpermH.length_eq
    have h2 := hperm.length_eq
    have h3 := hI.len
    simp only [List.length_cons] at h1 h2
    simp only
    omega

theorem syncInv_set [DecidableEq κ] {cmp : α → α → Ordering} {h : SortedHash κ α}
    (hI : SyncInv h) (k : κ) (v : α) : SyncInv (h.set cmp k v) := by
  cases hfk : hashFind h.hashIndex k with
  | none =>
    have hset : h.set cmp k v =
        ⟨ordInsert cmp ⟨k, v, h.nextSeq⟩ h.nodes, (k, h.nextSeq) :: h.hashIndex,
         h.nextSeq + 1⟩ := by
      simp [SortedHash.set, hfk]
    rw [hset]
    have hperm := ordInsert_perm cmp (⟨k, v, h.nextSeq⟩ : Entry κ α) h.nodes
    have hkabs := key_absent_nodes hI hfk
    have hkeysabs : ¬ k ∈ h.hashIndex.map Prod.fst := by
      intro hc
      rcases List.mem_map.1 hc with ⟨q, hq, hqk⟩
      exact (hashFind_eq_none_iff.1 hfk q hq) hqk
    constructor
    · intro e he
      rcases List.mem_cons.1 (hperm.mem_iff.1 he) with rfl | he2
      · exact Nat.lt_succ_self _
      · exact Nat.lt_trans (hI.seqLt e he2) (Nat.lt_succ_self _)
    · rw [(hperm.map Entry.seq).nodup_iff, List.map_cons, List.nodup_cons]
      exact ⟨seq_fresh hI, hI.seqNodup⟩
    · rw [(hperm.map Entry.key).nodup_iff, List.map_cons, List.nodup_cons]
      refine ⟨?_, hI.keysNodup⟩
      intro hc
      rcases List.mem_map.1 hc with ⟨e, he, hk⟩
      exact (hkabs e he) hk
    · rw [List.map_cons, List.nodup_cons]
      exact ⟨hkeysabs, hI.hkeysNodup⟩
    · intro e he
      rcases List.mem_cons.1 (hperm.mem_iff.1 he) with rfl | he2
      · exact List.mem_cons_self _ _
      · exact List.mem_cons_of_mem _ (hI.syncB e he2)
    · intro q hq
      rcases List.mem_cons.1 hq with rfl | hq2
      · exact ⟨⟨k, v, h.nextSeq⟩, hperm.mem_iff.2 (List.mem_cons_self _ _), rfl, rfl⟩
      · rcases hI.syncF q hq2 with ⟨e, he, hk, hs⟩
        exact ⟨e, hperm.mem_iff.2 (List.mem_cons_of_mem _ he), hk, hs⟩
    · have h1 := hperm.length_eq
      have h2 := hI.len
      simp only [List.length_cons] at h1 ⊢
      omega
  | some s =>
    have hset : h.set cmp k v =
        ⟨ordInsert cmp ⟨k, v, h.nextSeq⟩ (ordRemove s h.nodes),
         hashUpdate h.hashIndex k h.nextSeq, h.nextSeq + 1⟩ := by
      simp [SortedHash.set, hfk]
    rw [hset]
    have hmemIdx : (k, s) ∈ h.hashIndex := hashFind_eq_some_mem hfk
    rcases hI.syncF _ hmemIdx with ⟨e0, he0, hk0, hs0⟩
    have hnf : nodeFind s h.nodes = some e0 := nodeFind_of_mem_nodup hI.seqNodup he0 hs0
    have hpermR : h.nodes.Perm (e0 :: ordRemove s h.nodes) := ordRemove_perm hnf
    have hsubR := ordRemove_sublist s h.nodes
    have hpermI := ordInsert_perm cmp (⟨k, v, h.nextSeq⟩ : Entry κ α) (ordRemove s h.nodes)
    have hkeysR : ¬ k ∈ (ordRemove s h.nodes).map Entry.key := by
      have h1 := (hpermR.map Entry.key).nodup_iff.1 hI.keysNodup
      rw [List.map_cons] at h1
      have h2 := (List.nodup_cons.1 h1).1
      rw [hk0] at h2
      exact h2
    constructor
    · intro e he
      rcases List.mem_cons.1 (hpermI.mem_iff.1 he) with rfl | he2
      · exact Nat.lt_succ_self _
      · exact Nat.lt_trans (hI.seqLt e (hsubR.subset he2)) (Nat.lt_succ_self _)
    · rw [(hpermI.map Entry.seq).nodup_iff, List.map_cons, List.nodup_cons]
      refine ⟨?_, hI.seqNodup.sublist (hsubR.map Entry.seq)⟩
      intro hc
      exact seq_fresh hI ((hsubR.map Entry.seq).subset hc)
    · rw [(hpermI.map Entry.key).nodup_iff, List.map_cons, List.nodup_cons]
      exact ⟨hkeysR, hI.keysNodup.sublist (hsubR.map Entry.key)⟩
    · rw [hashUpdate_keys]
      exact hI.hkeysNodup
    · intro e he
      rcases List.mem_cons.1 (hpermI.mem_iff.1 he) with rfl | he2
      · exact hashUpdate_self_mem hmemIdx h.nextSeq
      · have heN : e ∈ h.nodes := hsubR.subset he2
        have hek : e.key ≠ k := by
          intro hc
          apply hkeysR
          rw [← hc]
          exact List.mem_map_of_mem Entry.key he2
        exact hashUpdate_mem_of_ne (hI.syncB e heN) hek
    · intro q hq
      rcases hashUpdate_mem_inv hI.hkeysNodup hq with rfl | ⟨hq2, hq3⟩
      · exact ⟨⟨k, v, h.nextSeq⟩, hpermI.mem_iff.2 (List.mem_cons_self _ _), rfl, rfl⟩
      · rcases hI.syncF q hq2 with ⟨e, he, hk, hs⟩
        have heR : e ∈ ordRemove s h.nodes := by
          rcases List.mem_cons.1 (hpermR.mem_iff.1 he) with rfl | h2
          · exfalso
            apply hq3
            rw [← hk, hk0]
          · exact h2
        exact ⟨e, hpermI.mem_iff.2 (List.mem_cons_of_mem _ heR), hk, hs⟩
    · have h1 := hpermR.length_eq
      have h2 := hpermI.length_eq
      have h3 := hI.len
      simp only [List.length_cons] at h1 h2
      simp only [hashUpdate_length]
      omega

theorem syncInv_delete [DecidableEq κ] {h : SortedHash κ α} (hI : SyncInv h) (k : κ) :
    SyncInv (h.delete k).2 := by
  cases hfk : hashFind h.hashIndex k with
  | none =>
    have hd : (h.delete k).2 = h := by simp [SortedHash.delete, hfk]
    rw [hd]
    exact hI
  | some s =>
    have hd : (h.delete k).2 = ⟨ordRemove s h.nodes, hashRemove h.hashIndex k, h.nextSeq⟩ := by
      simp [SortedHash.delete, hfk]
    rw [hd]
    have hmemIdx : (k, s) ∈ h.hashIndex := hashFind_eq_some_mem hfk
    rcases hI.syncF _ hmemIdx with ⟨e0, he0, hk0, hs0⟩
    have hnf : nodeFind s h.nodes = some e0 := nodeFind_of_mem_nodup hI.seqNodup he0 hs0
    have hres := syncInv_removed hI (ordRemove_perm hnf) (ordRemove_sublist s h.nodes)
    rw [hk0] at hres
    exact hres

theorem syncInv_shift [DecidableEq κ] {h : SortedHash κ α} (hI : SyncInv h) :
    SyncInv h.shift.2 := by
  cases hn : h.nodes with
  | nil =>
    have hs : h.shift.2 = h := by simp [SortedHash.shift, hn]
    rw [hs]
    exact hI
  | cons e rest =>
    have hs : h.shift.2 = ⟨rest, hashRemove h.hashIndex e.key, h.nextSeq⟩ := by
      simp [SortedHash.shift, hn]
    rw [hs]
    have hperm : h.nodes.Perm (e :: rest) := by
      rw [hn]
    have hsub : List.Sublist rest h.nodes := by
      rw [hn]
      exact List.sublist_cons_self e rest
    exact syncInv_removed hI hperm hsub

theorem syncInv_pop [DecidableEq κ] {h : SortedHash κ α} (hI : SyncInv h) :
    SyncInv h.pop.2 := by
  cases hn : h.nodes.getLast? with
  | none =>
    have hp : h.pop.2 = h := by simp [SortedHash.pop, hn]
    rw [hp]
    exact hI
  | some e =>
    have hp : h.pop.2 = ⟨h.nodes.dropLast, hashRemove h.hashIndex e.key, h.nextSeq⟩ := by
      simp [SortedHash.pop, hn]
    rw [hp]
    have hsplit : h.nodes.dropLast ++ [e] = h.nodes :=
      List.dropLast_append_getLast? e (Option.mem_def.2 hn)
    have hperm : h.nodes.Perm (e :: h.nodes.dropLast) := by
      nth_rewrite 1 [← hsplit]
      exact List.perm_append_singleton e _
    exact syncInv_removed hI hperm (List.dropLast_sublist h.nodes)

theorem syncInv_clear [DecidableEq κ] {h : SortedHash κ α} : SyncInv h.clear := by
  constructor <;> simp [SortedHash.clear]

theorem syncInv_reachable [DecidableEq κ] {cmp : α → α → Ordering} {h : SortedHash κ α}
    (hr : Reachable cmp h) : SyncInv h := by
  induction hr with
  | empty => exact syncInv_empty
  | set k v hr ih => exact syncInv_set ih k v
  | del k hr ih => exact syncInv_delete ih k
  | shift hr ih => exact syncInv_shift ih
  | pop hr ih => exact syncInv_pop ih
  | clear hr ih => exact syncInv_clear

/-! ### Sortedness of the order index on reachable map states -/

theorem sorted_reachable [DecidableEq κ] {cmp : α → α → Ordering} (hL : LawfulCmp cmp)
    {h : SortedHash κ α} (hr : Reachable cmp h) : h.nodes.Pairwise (entryLE cmp) := by
  induction hr with
  | empty => simp [SortedHash.empty]
  | set k v hr ih =>
    rename_i h0
    have hI := syncInv_reachable hr
    cases hfk : hashFind h0.hashIndex k with
    | none =>
      have hset : h0.set cmp k v =
          ⟨ordInsert cmp ⟨k, v, h0.nextSeq⟩ h0.nodes, (k, h0.nextSeq) :: h0.hashIndex,
           h0.nextSeq + 1⟩ := by
        simp [SortedHash.set, hfk]
      rw [hset]
      exact ordInsert_pairwise hL ih (fun x hx => hI.seqLt x hx)
    | some s =>
      have hset : h0.set cmp k v =
          ⟨ordInsert cmp ⟨k, v, h0.nextSeq⟩ (ordRemove s h0.nodes),
           hashUpdate h0.hashIndex k h0.nextSeq, h0.nextSeq + 1⟩ := by
        simp [SortedHash.set, hfk]
      rw [hset]
      exact ordInsert_pairwise hL (ih.sublist (ordRemove_sublist s h0.nodes))
        (fun x hx => hI.seqLt x ((ordRemove_sublist s h0.nodes).subset hx))
  | del k hr ih =>
    rename_i h0
    cases hfk : hashFind h0.hashIndex k with
    | none =>
      have hd : (h0.delete k).2 = h0 := by simp [SortedHash.delete, hfk]
      rw [hd]
      exact ih
    | some s =>
      have hd : (h0.delete k).2 =
          ⟨ordRemove s h0.nodes, hashRemove h0.hashIndex k, h0.nextSeq⟩ := by
        simp [SortedHash.delete, hfk]
      rw [hd]
      exact ih.sublist (ordRemove_sublist s h0.nodes)
  | shift hr ih =>
    rename_i h0
    cases hn : h0.nodes with
    | nil =>
      have hs : h0.shift.2 = h0 := by simp [SortedHash.shift, hn]
      rw [hs]
      exact ih
    | cons e rest =>
      have hs : h0.shift.2 = ⟨rest, hashRemove h0.hashIndex e.key, h0.nextSeq⟩ := by
        simp [SortedHash.shift, hn]
      rw [hs]
      rw [hn] at ih
      exact (List.pairwise_cons.1 ih).2
  | pop hr ih =>
    rename_i h0
    cases hn : h0.nodes.getLast? with
    | none =>
      have hp : h0.pop.2 = h0 := by simp [SortedHash.pop, hn]
      rw [hp]
      exact ih
    | some e =>
      have hp : h0.pop.2 = ⟨h0.nodes.dropLast, hashRemove h0.hashIndex e.key, h0.nextSeq⟩ := by
        simp [SortedHash.pop, hn]
      rw [hp]
      exact ih.sublist (List.dropLast_sublist h0.nodes)
  | clear hr ih =>
    simp [SortedHash.clear]

/-! ### Characterization of `get` -/

theorem get_set_same [DecidableEq κ] {cmp : α → α → Ordering} {h : SortedHash κ α}
    (hI : SyncInv h) (k : κ) (v : α) : (h.set cmp k v).get k = some v := by
  cases hfk : hashFind h.hashIndex k with
  | none =>
    have hset : h.set cmp k v =
        ⟨ordInsert cmp ⟨k, v, h.nextSeq⟩ h.nodes, (k, h.nextSeq) :: h.hashIndex,
         h.nextSeq + 1⟩ := by
      simp [SortedHash.set, hfk]
    rw [hset]
    have hf2 : hashFind ((k, h.nextSeq) :: h.hashIndex) k = some h.nextSeq :=
      hashFind_cons_pos rfl
    have hnf : nodeFind h.nextSeq (ordInsert cmp ⟨k, v, h.nextSeq⟩ h.nodes) =
        some ⟨k, v, h.nextSeq⟩ := by
      unfold nodeFind
      apply findFirstP_eq_of_unique
      · exact (ordInsert_perm cmp _ _).mem_iff.2 (List.mem_cons_self _ _)
      · simp
      · intro y hy hpy
        have hy2 := (ordInsert_perm cmp _ _).mem_iff.1 hy
        rcases List.mem_cons.1 hy2 with rfl | hy3
        · rfl
        · exfalso
          have hseq : y.seq = h.nextSeq := by simpa using hpy
          have hlt := hI.seqLt y hy3
          rw [hseq] at hlt
          exact Nat.lt_irrefl _ hlt
    simp [SortedHash.get, hf2, hnf]
  | some s =>
    have hset : h.set cmp k v =
        ⟨ordInsert cmp ⟨k, v, h.nextSeq⟩ (ordRemove s h.nodes),
         hashUpdate h.hashIndex k h.nextSeq, h.nextSeq + 1⟩ := by
      simp [SortedHash.set, hfk]
    rw [hset]
    have hf2 : hashFind (hashUpdate h.hashIndex k h.nextSeq) k = some h.nextSeq :=
      hashFind_hashUpdate_self hfk h.nextSeq
    have hnf : nodeFind h.nextSeq (ordInsert cmp ⟨k, v, h.nextSeq⟩ (ordRemove s h.nodes)) =
        some ⟨k, v, h.nextSeq⟩ := by
      unfold nodeFind
      apply findFirstP_eq_of_unique
      · exact (ordInsert_perm cmp _ _).mem_iff.2 (List.mem_cons_self _ _)
      · simp
      · intro y hy hpy
        have hy2 := (ordInsert_perm cmp _ _).mem_iff.1 hy
        rcases List.mem_cons.1 hy2 with rfl | hy3
        · rfl
        · exfalso
          have hseq : y.seq = h.nextSeq := by simpa using hpy
          have hlt := hI.seqLt y ((ordRemove_sublist s h.nodes).subset hy3)
          rw [hseq] at hlt
          exact Nat.lt_irrefl _ hlt
    simp [SortedHash.get, hf2, hnf]

theorem get_set_ne [DecidableEq κ] {cmp : α → α → Ordering} {h : SortedHash κ α}
    (hI : SyncInv h) {k k2 : κ} (hne : k2 ≠ k) (v : α) :
    (h.set cmp k2 v).get k = h.get k := by
  cases hfk2 : hashFind h.hashIndex k2 with
  | none =>
    have hset : h.set cmp k2 v =
        ⟨ordInsert cmp ⟨k2, v, h.nextSeq⟩ h.nodes, (k2, h.nextSeq) :: h.hashIndex,
         h.nextSeq + 1⟩ := by
      simp [SortedHash.set, hfk2]
    rw [hset]
    have hf2 : hashFind ((k2, h.nextSeq) :: h.hashIndex) k = hashFind h.hashIndex k :=
      hashFind_cons_neg hne
    cases hfk : hashFind h.hashIndex k with
    | none => simp [SortedHash.get, hf2, hfk]
    | some s =>
      have hmem : (k, s) ∈ h.hashIndex := hashFind_eq_some_mem hfk
      rcases hI.syncF _ hmem with ⟨e0, he0, hk0, hs0⟩
      have hslt : s < h.nextSeq := by
        have h2 := hI.seqLt e0 he0
        rw [hs0] at h2
        exact h2
      have hnf0 : nodeFind s h.nodes = some e0 := nodeFind_of_mem_nodup hI.seqNodup he0 hs0
      have hnf : nodeFind s (ordInsert cmp ⟨k2, v, h.nextSeq⟩ h.nodes) = some e0 := by
        unfold nodeFind
        apply findFirstP_eq_of_unique
        · exact (ordInsert_perm cmp _ _).mem_iff.2 (List.mem_cons_of_mem _ he0)
        · simp [hs0]
        · intro y hy hpy
          have hseq : y.seq = s := by simpa using hpy
          have hy2 := (ordInsert_perm cmp _ _).mem_iff.1 hy
          rcases List.mem_cons.1 hy2 with rfl | hy3
          · exfalso
            simp at hseq
            omega
          · exact List.inj_on_of_nodup_map hI.seqNodup hy3 he0 (by rw [hseq, hs0])
      simp [SortedHash.get, hf2, hfk, hnf, hnf0]
  | some s2 =>
    have hset : h.set cmp k2 v =
        ⟨ordInsert cmp ⟨k2, v, h.nextSeq⟩ (ordRemove s2 h.nodes),
         hashUpdate h.hashIndex k2 h.nextSeq, h.nextSeq + 1⟩ := by
      simp [SortedHash.set, hfk2]
    rw [hset]
    have hf2 : hashFind (hashUpdate h.hashIndex k2 h.nextSeq) k = hashFind h.hashIndex k :=
      hashFind_hashUpdate_ne hne
    cases hfk : hashFind h.hashIndex k with
    | none => simp [SortedHash.get, hf2, hfk]
    | some s =>
      have hmem : (k, s) ∈ h.hashIndex := hashFind_eq_some_mem hfk
      rcases hI.syncF _ hmem with ⟨e0, he0, hk0, hs0⟩
      have hnf0 : nodeFind s h.nodes = some e0 := nodeFind_of_mem_nodup hI.seqNodup he0 hs0
      have hmem2 : (k2, s2) ∈ h.hashIndex := hashFind_eq_some_mem hfk2
      rcases hI.syncF _ hmem2 with ⟨e1, he1, hk1, hs1⟩
      have hk1b : e1.key = k2 := hk1
      have hk0b : e0.key = k := hk0
      have hne01 : e0 ≠ e1 := by
        intro hc
        apply hne
        rw [← hk1b, ← hc, hk0b]
      have hnf1 : nodeFind s2 h.nodes = some e1 := nodeFind_of_mem_nodup hI.seqNodup he1 hs1
      have hpermR : h.nodes.Perm (e1 :: ordRemove s2 h.nodes) := ordRemove_perm hnf1
      have he0R : e0 ∈ ordRemove s2 h.nodes := by
        rcases List.mem_cons.1 (hpermR.mem_iff.1 he0) with hc | hc
        · exact absurd hc hne01
        · exact hc
      have hslt : s < h.nextSeq := by
        have h2 := hI.seqLt e0 he0
        rw [hs0] at h2
        exact h2
      have hnf : nodeFind s (ordInsert cmp ⟨k2, v, h.nextSeq⟩ (ordRemove s2 h.nodes)) =
          some e0 := by
        unfold nodeFind
        apply findFirstP_eq_of_unique
        · exact (ordInsert_perm cmp _ _).mem_iff.2 (List.mem_cons_of_mem _ he0R)
        · simp [hs0]
        · intro y hy hpy
          have hseq : y.seq = s := by simpa using hpy
          have hy2 := (ordInsert_perm cmp _ _).mem_iff.1 hy
          rcases List.mem_cons.1 hy2 with rfl | hy3
          · exfalso
            simp at hseq
            omega
          · exact List.inj_on_of_nodup_map hI.seqNodup
              ((ordRemove_sublist s2 h.nodes).subset hy3) he0 (by rw [hseq, hs0])
      simp [SortedHash.get, hf2, hfk, hnf, hnf0]

theorem get_applySets [DecidableEq κ] {cmp : α → α → Ordering} (k : κ) (ps : List (κ × α))
    {h : SortedHash κ α} (hI : SyncInv h) :
    (applySets cmp h ps).get k =
      match lastValue k ps with
      | some v => some v
      | none => h.get k := by
  induction ps generalizing h with
  | nil => simp [applySets, lastValue]
  | cons p ps ih =>
    have hIs : SyncInv (h.set cmp p.1 p.2) := syncInv_set hI p.1 p.2
    cases hl : lastValue k ps with
    | some v =>
      simp only [applySets, lastValue, hl]
      rw [ih hIs, hl]
    | none =>
      simp only [applySets, lastValue, hl]
      rw [ih hIs, hl]
      by_cases hpk : p.1 = k
      · rw [if_pos hpk, ← hpk]
        exact get_set_same hI p.1 p.2
      · rw [if_neg hpk]
        exact get_set_ne hI hpk p.2

/-! ### Invariants of the ordered unique set -/

theorem setInv_empty {cmp : α → α → Ordering} : SetInv cmp (SortedSet.empty : SortedSet α) := by
  constructor <;> simp [SortedSet.empty]

theorem setInv_insert {cmp : α → α → Ordering} (hL : LawfulCmp cmp) {s : SortedSet α}
    (hI : SetInv cmp s) (v : α) : SetInv cmp (s.insert cmp v).2 := by
  cases hfv : s.findByValue cmp v with
  | some e =>
    have hid : (s.insert cmp v).2 = s := by simp [SortedSet.insert, hfv]
    rw [hid]
    exact hI
  | none =>
    have hins : (s.insert cmp v).2 =
        ⟨ordInsert cmp ⟨(), v, s.nextSeq⟩ s.nodes, s.nextSeq + 1⟩ := by
      simp [SortedSet.insert, hfv]
    rw [hins]
    have hnone : ∀ x ∈ s.nodes, cmp x.value v ≠ Ordering.eq := by
      intro x hx
      have h1 := findFirstP_eq_none_iff.1 hfv x hx
      simpa using h1
    have hperm := ordInsert_perm cmp (⟨(), v, s.nextSeq⟩ : Entry Unit α) s.nodes
    constructor
    · exact ordInsert_pairwise hL hI.sorted (fun x hx => hI.seqLt x hx)
    · refine pairwise_ordInsert_of_rel hI.noEq ?_ ?_
      · intro x hx hc
        exact hnone x hx (hL.eq_symm hc)
      · intro x hx hc
        exact hnone x hx hc
    · intro e he
      rcases List.mem_cons.1 (hperm.mem_iff.1 he) with rfl | he2
      · exact Nat.lt_succ_self _
      · exact Nat.lt_trans (hI.seqLt e he2) (Nat.lt_succ_self _)

theorem setInv_foldl {cmp : α → α → Ordering} (hL : LawfulCmp cmp) (vs : List α)
    {s : SortedSet α} (hI : SetInv cmp s) :
    SetInv cmp (List.foldl (fun s v => (SortedSet.insert cmp s v).2) s vs) := by
  induction vs generalizing s with
  | nil => exact hI
  | cons v vs ih => exact ih (setInv_insert hL hI v)

theorem setInv_fromList {cmp : α → α → Ordering} (hL : LawfulCmp cmp) (vs : List α) :
    SetInv cmp (SortedSet.fromList cmp vs) :=
  setInv_foldl hL vs setInv_empty

/-! ### Draining by repeated shift and pop -/

theorem shift_of_nil [DecidableEq κ] {h : SortedHash κ α} (hn : h.nodes = []) :
    h.shift = (none, h) := by
  simp [SortedHash.shift, hn]

theorem pop_of_nil [DecidableEq κ] {h : SortedHash κ α} (hn : h.nodes = []) :
    h.pop = (none, h) := by
  simp [SortedHash.pop, hn]

theorem setShift_of_nil {s : SortedSet α} (hn : s.nodes = []) : s.shift = (none, s) := by
  simp [SortedSet.shift, hn]

theorem setPop_of_nil {s : SortedSet α} (hn : s.nodes = []) : s.pop = (none, s) := by
  simp [SortedSet.pop, hn]

theorem drainShiftAux_spec [DecidableEq κ] : ∀ (n : Nat) (h : SortedHash κ α),
    h.nodes.length = n →
    (drainShiftAux n h).1 = h.toList ∧ (drainShiftAux n h).2.nodes = [] := by
  intro n
  induction n with
  | zero =>
    intro h hlen
    have hn : h.nodes = [] := List.length_eq_zero.1 hlen
    constructor
    · simp [drainShiftAux, SortedHash.toList, hn]
    · simp [drainShiftAux, hn]
  | succ n ih =>
    intro h hlen
    cases hn : h.nodes with
    | nil =>
      rw [hn] at hlen
      cases hlen
    | cons e rest =>
      have hshift : h.shift =
          (some (e.key, e.value), ⟨rest, hashRemove h.hashIndex e.key, h.nextSeq⟩) := by
        simp [SortedHash.shift, hn]
      have hlen2 :
          (⟨rest, hashRemove h.hashIndex e.key, h.nextSeq⟩ : SortedHash κ α).nodes.length = n := by
        rw [hn] at hlen
        simpa using hlen
      rcases ih _ hlen2 with ⟨ih1, ih2⟩
      constructor
      · simp only [drainShiftAux, hshift]
        rw [ih1]
        simp [SortedHash.toList, hn]
      · simp only [drainShiftAux, hshift]
        exact ih2

theorem drainShift_spec [DecidableEq κ] (h : SortedHash κ α) :
    h.drainShift.1 = h.toList ∧ h.drainShift.2.nodes = [] :=
  drainShiftAux_spec h.length h rfl

theorem drainPopAux_spec [DecidableEq κ] : ∀ (n : Nat) (h : SortedHash κ α),
    h.nodes.length = n →
    (drainPopAux n h).1 = h.toList.reverse ∧ (drainPopAux n h).2.nodes = [] := by
  intro n
  induction n with
  | zero =>
    intro h hlen
    have hn : h.nodes = [] := List.length_eq_zero.1 hlen
    constructor
    · simp [drainPopAux, SortedHash.toList, hn]
    · simp [drainPopAux, hn]
  | succ n ih =>
    intro h hlen
    have hne : h.nodes ≠ [] := by
      intro hc
      rw [hc] at hlen
      cases hlen
    obtain ⟨e, hn⟩ : ∃ e, h.nodes.getLast? = some e := by
      cases hg : h.nodes.getLast? with
      | none => exact absurd (List.getLast?_eq_none_iff.1 hg) hne
      | some e => exact ⟨e, rfl⟩
    have hpop : h.pop =
        (some (e.key, e.value),
         ⟨h.nodes.dropLast, hashRemove h.hashIndex e.key, h.nextSeq⟩) := by
      simp [SortedHash.pop, hn]
    have hsplit : h.nodes.dropLast ++ [e] = h.nodes :=
      List.dropLast_append_getLast? e (Option.mem_def.2 hn)
    have hlen2 :
        (⟨h.nodes.dropLast, hashRemove h.hashIndex e.key, h.nextSeq⟩ :
          SortedHash κ α).nodes.length = n := by
      simp only
      rw [List.length_dropLast]
      omega
    rcases ih _ hlen2 with ⟨ih1, ih2⟩
    constructor
    · simp only [drainPopAux, hpop]
      rw [ih1]
      simp only [SortedHash.toList]
      conv_rhs => rw [← hsplit]
      simp
    · simp only [drainPopAux, hpop]
      exact ih2

theorem drainPop_spec [DecidableEq κ] (h : SortedHash κ α) :
    h.drainPop.1 = h.toList.reverse ∧ h.drainPop.2.nodes = [] :=
  drainPopAux_spec h.length h rfl

theorem drainShiftSetAux_spec : ∀ (n : Nat) (s : SortedSet α), s.nodes.length = n →
    (drainShiftSetAux n s).1 = s.toList ∧ (drainShiftSetAux n s).2.nodes = [] := by
  intro n
  induction n with
  | zero =>
    intro s hlen
    have hn : s.nodes = [] := List.length_eq_zero.1 hlen
    constructor
    · simp [drainShiftSetAux, SortedSet.toList, hn]
    · simp [drainShiftSetAux, hn]
  | succ n ih =>
    intro s hlen
    cases hn : s.nodes with
    | nil =>
      rw [hn] at hlen
      cases hlen
    | cons e rest =>
      have hshift : s.shift = (some e.value, ⟨rest, s.nextSeq⟩) := by
        simp [SortedSet.shift, hn]
      have hlen2 : (⟨rest, s.nextSeq⟩ : SortedSet α).nodes.length = n := by
        rw [hn] at hlen
        simpa using hlen
      rcases ih _ hlen2 with ⟨ih1, ih2⟩
      constructor
      · simp only [drainShiftSetAux, hshift]
        rw [ih1]
        simp [SortedSet.toList, hn]
      · simp only [drainShiftSetAux, hshift]
        exact ih2

theorem setDrainShift_spec (s : SortedSet α) :
    s.drainShift.1 = s.toList ∧ s.drainShift.2.nodes = [] :=
  drainShiftSetAux_spec s.length s rfl

theorem drainPopSetAux_spec : ∀ (n : Nat) (s : SortedSet α), s.nodes.length = n →
    (drainPopSetAux n s).1 = s.toList.reverse ∧ (drainPopSetAux n s).2.nodes = [] := by
  intro n
  induction n with
  | zero =>
    intro s hlen
    have hn : s.nodes = [] := List.length_eq_zero.1 hlen
    constructor
    · simp [drainPopSetAux, SortedSet.toList, hn]
    · simp [drainPopSetAux, hn]
  | succ n ih =>
    intro s hlen
    have hne : s.nodes ≠ [] := by
      intro hc
      rw [hc] at hlen
      cases hlen
    obtain ⟨e, hn⟩ : ∃ e, s.nodes.getLast? = some e := by
      cases hg : s.nodes.getLast? with
      | none => exact absurd (List.getLast?_eq_none_iff.1 hg) hne
      | some e => exact ⟨e, rfl⟩
    have hpop : s.pop = (some e.value, ⟨s.nodes.dropLast, s.nextSeq⟩) := by
      simp [SortedSet.pop, hn]
    have hsplit : s.nodes.dropLast ++ [e] = s.nodes :=
      List.dropLast_append_getLast? e (Option.mem_def.2 hn)
    have hlen2 : (⟨s.nodes.dropLast, s.nextSeq⟩ : SortedSet α).nodes.length = n := by
      simp only
      rw [List.length_dropLast]
      omega
    rcases ih _ hlen2 with ⟨ih1, ih2⟩
    constructor
    · simp only [drainPopSetAux, hpop]
      rw [ih1]
      simp only [SortedSet.toList]
      conv_rhs => rw [← hsplit]
      simp
    · simp only [drainPopSetAux, hpop]
      exact ih2

theorem setDrainPop_spec (s : SortedSet α) :
    s.drainPop.1 = s.toList.reverse ∧ s.drainPop.2.nodes = [] :=
  drainPopSetAux_spec s.length s rfl

theorem findByValue_isSome {cmp : α → α → Ordering} {s : SortedSet α} {v : α}
    (hm : ∃ m ∈ s.nodes, cmp m.value v = Ordering.eq) :
    ∃ e, s.findByValue cmp v = some e := by
  unfold SortedSet.findByValue
  rcases hm with ⟨m, hm1, hm2⟩
  have hsome :=
    (@findFirstP_isSome_iff _ (fun e => decide (cmp e.value v = Ordering.eq)) s.nodes).2
      ⟨m, hm1, decide_eq_true hm2⟩
  exact Option.isSome_iff_exists.1 hsome

theorem pairwise_value_of_sorted {cmp : α → α → Ordering} {l : List (Entry κ α)}
    (hs : l.Pairwise (entryLE cmp)) :
    (l.map Entry.value).Pairwise (fun a b => cmp a b ≠ Ordering.gt) := by
  rw [List.pairwise_map]
  refine hs.imp ?_
  intro a b hab hc
  rcases hab with hx | ⟨hx, _⟩ <;> rw [hx] at hc <;> exact Ordering.noConfusion hc

theorem pairwise_value_rev_of_sorted {cmp : α → α → Ordering} (hL : LawfulCmp cmp)
    {l : List (Entry κ α)} (hs : l.Pairwise (entryLE cmp)) :
    ((l.map Entry.value).reverse).Pairwise (fun a b => cmp a b ≠ Ordering.lt) := by
  rw [List.pairwise_reverse, List.pairwise_map]
  refine hs.imp ?_
  intro a b hab hc
  rcases hab with hx | ⟨hx, _⟩
  · have hgt := hL.gt_of_lt hx
    rw [hgt] at hc
    exact Ordering.noConfusion hc
  · have heq := hL.eq_symm hx
    rw [heq] at hc
    exact Ordering.noConfusion hc

theorem toList_snd [DecidableEq κ] (h : SortedHash κ α) :
    h.toList.map Prod.snd = h.nodes.map Entry.value := by
  unfold SortedHash.toList
  rw [List.map_map]
  rfl

/-! ### The claims -/

/-- Claim C3: for every insertion sequence under a lawful comparator, the
set's in-order traversal is non-decreasing under the comparator and contains
no two comparator-equal values; in particular building a set from [3,1,2]
and traversing yields [1,2,3]. -/
theorem claim_C3 {α : Type} (cmp : α → α → Ordering) (hL : LawfulCmp cmp) (vs : List α) :
    ((SortedSet.fromList cmp vs).toList).Pairwise (fun a b => cmp a b ≠ Ordering.gt)
    ∧ ((SortedSet.fromList cmp vs).toList).Pairwise (fun a b => cmp a b ≠ Ordering.eq)
    ∧ (SortedSet.fromList natCmp [3, 1, 2]).toList = [1, 2, 3] := by
  have hI := setInv_fromList hL vs
  refine ⟨?_, ?_, rfl⟩
  · exact pairwise_value_of_sorted hI.sorted
  · unfold SortedSet.toList
    rw [List.pairwise_map]
    exact hI.noEq

/-- Witness for C3 at the documented scenario: the set built from [3,1,2]
under the natural order. -/
theorem claim_C3_witness :
    LawfulCmp natCmp ∧
    (((SortedSet.fromList natCmp [3, 1, 2]).toList).Pairwise
        (fun a b => natCmp a b ≠ Ordering.gt)
      ∧ ((SortedSet.fromList natCmp [3, 1, 2]).toList).Pairwise
        (fun a b => natCmp a b ≠ Ordering.eq)
      ∧ (SortedSet.fromList natCmp [3, 1, 2]).toList = [1, 2, 3]) :=
  ⟨lawful_natCmp, claim_C3 natCmp lawful_natCmp [3, 1, 2]⟩

/-- Claim C4: inserting a value comparator-equal to an existing member is
rejected — the insertion returns false and leaves the set entirely
unchanged, so its length and the retained member are untouched. -/
theorem claim_C4 {α : Type} (cmp : α → α → Ordering) (s : SortedSet α) (v : α)
    (hm : ∃ m ∈ s.nodes, cmp m.value v = Ordering.eq) :
    s.insert cmp v = (false, s) := by
  rcases findByValue_isSome hm with ⟨e, he⟩
  simp [SortedSet.insert, he]

/-- Witness for C4: a set already holding 12 rejects a second insertion of a
comparator-equal 12, returning false with the state unchanged. -/
theorem claim_C4_witness :
    (∃ m ∈ (SortedSet.fromList natCmp [12]).nodes, natCmp m.value 12 = Ordering.eq)
    ∧ (SortedSet.fromList natCmp [12]).insert natCmp 12 =
        (false, SortedSet.fromList natCmp [12]) :=
  ⟨by decide, claim_C4 natCmp (SortedSet.fromList natCmp [12]) 12 (by decide)⟩

/-- Claim C8: set delete returns a removed member exactly when a
comparator-equal member exists; it removes only the first (lowest-sequence)
comparator-equal member of a sorted set, and with no comparator-equal member
it returns none and leaves the set unchanged rather than failing. -/
theorem claim_C8 {α : Type} (cmp : α → α → Ordering) (hL : LawfulCmp cmp) (s : SortedSet α)
    (hs : s.nodes.Pairwise (entryLE cmp)) (v : α) :
    ((s.delete cmp v).1.isSome = true ↔ ∃ m ∈ s.nodes, cmp m.value v = Ordering.eq)
    ∧ ((∀ m ∈ s.nodes, cmp m.value v ≠ Ordering.eq) → s.delete cmp v = (none, s))
    ∧ (∀ e, s.findByValue cmp v = some e →
        (s.delete cmp v).1 = some e.value
        ∧ s.nodes.Perm (e :: (s.delete cmp v).2.nodes)
        ∧ cmp e.value v = Ordering.eq
        ∧ ∀ m ∈ s.nodes, cmp m.value v = Ordering.eq → e.seq ≤ m.seq) := by
  refine ⟨?_, ?_, ?_⟩
  · have h1 : (s.delete cmp v).1 = (s.findByValue cmp v).map Entry.value := by
      unfold SortedSet.delete
      cases hf : s.findByValue cmp v <;> simp
    rw [h1, Option.isSome_map']
    unfold SortedSet.findByValue
    rw [findFirstP_isSome_iff]
    constructor
    · rintro ⟨x, hx, hpx⟩
      exact ⟨x, hx, by simpa using hpx⟩
    · rintro ⟨m, hm, hmeq⟩
      exact ⟨m, hm, by simp [hmeq]⟩
  · intro hall
    have hf : s.findByValue cmp v = none := by
      unfold SortedSet.findByValue
      rw [findFirstP_eq_none_iff]
      intro x hx
      simp [hall x hx]
    unfold SortedSet.delete
    simp only [hf]
  · intro e hf
    unfold SortedSet.findByValue at hf
    have heq : cmp e.value v = Ordering.eq := by simpa using (findFirstP_mem hf).2
    refine ⟨?_, ?_, heq, ?_⟩
    · unfold SortedSet.delete SortedSet.findByValue
      simp only [hf]
    · have hperm := removeFirstP_perm hf
      unfold SortedSet.delete SortedSet.findByValue
      simp only [hf]
      exact hperm
    · intro m hm hmeq
      rcases findFirstP_split hf with ⟨l₁, l₂, hsp, hl1, hrm⟩
      rw [hsp] at hm
      rcases List.mem_append.1 hm with hm1 | hm2
      · exfalso
        have hfalse := hl1 m hm1
        simp [hmeq] at hfalse
      · rcases List.mem_cons.1 hm2 with rfl | hm3
        · exact Nat.le_refl _
        · have hpw : entryLE cmp e m := by
            rw [hsp] at hs
            rcases List.pairwise_append.1 hs with ⟨_, h2, _⟩
            exact (List.pairwise_cons.1 h2).1 m hm3
          have hem : cmp e.value m.value = Ordering.eq :=
            hL.eq_trans heq (hL.eq_symm hmeq)
          rcases hpw with hlt | ⟨_, hseq⟩
          · rw [hem] at hlt
            exact Ordering.noConfusion hlt
          · exact Nat.le_of_lt hseq

/-- Witness for C8 at the documented example set [1,5,3] with probe value 3:
delete finds and removes the comparator-equal member. -/
theorem claim_C8_witness :
    LawfulCmp natCmp
    ∧ (SortedSet.fromList natCmp [1, 5, 3]).nodes.Pairwise (entryLE natCmp)
    ∧ ((((SortedSet.fromList natCmp [1, 5, 3]).delete natCmp 3).1.isSome = true ↔
          ∃ m ∈ (SortedSet.fromList natCmp [1, 5, 3]).nodes,
            natCmp m.value 3 = Ordering.eq)
      ∧ ((∀ m ∈ (SortedSet.fromList natCmp [1, 5, 3]).nodes,
            natCmp m.value 3 ≠ Ordering.eq) →
          (SortedSet.fromList natCmp [1, 5, 3]).delete natCmp 3 =
            (none, SortedSet.fromList natCmp [1, 5, 3]))
      ∧ (∀ e, (SortedSet.fromList natCmp [1, 5, 3]).findByValue natCmp 3 = some e →
          ((SortedSet.fromList natCmp [1, 5, 3]).delete natCmp 3).1 = some e.value
          ∧ (SortedSet.fromList natCmp [1, 5, 3]).nodes.Perm
              (e :: ((SortedSet.fromList natCmp [1, 5, 3]).delete natCmp 3).2.nodes)
          ∧ natCmp e.value 3 = Ordering.eq
          ∧ ∀ m ∈ (SortedSet.fromList natCmp [1, 5, 3]).nodes,
              natCmp m.value 3 = Ordering.eq → e.seq ≤ m.seq)) :=
  ⟨lawful_natCmp, by decide,
    claim_C8 natCmp lawful_natCmp (SortedSet.fromList natCmp [1, 5, 3]) (by decide) 3⟩

/-- Claim C9: reject_first! removes exactly the first element in traversal
order satisfying the predicate (or nothing when none matches) and keeps
every other element; on the documented scenario [0,1,2,3] with the odd
predicate, the resulting traversal is [0,2,3]. -/
theorem claim_C9 {α : Type} (p : α → Bool) (s : SortedSet α) :
    ((s.rejectFirst p).1.isSome = true ↔ ∃ e ∈ s.nodes, p e.value = true)
    ∧ (∀ e, findFirstP (fun x => p x.value) s.nodes = some e →
        ∃ l₁ l₂, s.nodes = l₁ ++ e :: l₂ ∧ (∀ x ∈ l₁, p x.value = false)
          ∧ p e.value = true
          ∧ s.rejectFirst p = (some e.value, ⟨l₁ ++ l₂, s.nextSeq⟩))
    ∧ ((∀ e ∈ s.nodes, p e.value = false) → s.rejectFirst p = (none, s))
    ∧ ((SortedSet.fromList natCmp [0, 1, 2, 3]).rejectFirst
        (fun n => decide (n % 2 = 1))).2.toList = [0, 2, 3] := by
  refine ⟨?_, ?_, ?_, rfl⟩
  · have h1 : (s.rejectFirst p).1 =
        (findFirstP (fun x => p x.value) s.nodes).map Entry.value := by
      unfold SortedSet.rejectFirst
      cases hf : findFirstP (fun x => p x.value) s.nodes <;> simp
    rw [h1, Option.isSome_map']
    exact findFirstP_isSome_iff
  · intro e hf
    rcases findFirstP_split hf with ⟨l₁, l₂, hsp, hl1, hrm⟩
    refine ⟨l₁, l₂, hsp, hl1, (findFirstP_mem hf).2, ?_⟩
    unfold SortedSet.rejectFirst
    simp only [hf, hrm]
  · intro hall
    have hf : findFirstP (fun x => p x.value) s.nodes = none :=
      findFirstP_eq_none_iff.2 (fun x hx => hall x hx)
    unfold SortedSet.rejectFirst
    simp only [hf]

/-- Claim C10: the map's has_key? and key? are aliases of include? and all
three return the same boolean on every state and key; on reachable states
that boolean reports exactly whether a live entry carries the key. -/
theorem claim_C10 {κ α : Type} [DecidableEq κ] (cmp : α → α → Ordering)
    (h : SortedHash κ α) (hr : Reachable cmp h) (k : κ) :
    h.hasKeyQ k = h.includeQ k ∧ h.keyQ k = h.includeQ k ∧
      (h.includeQ k = true ↔ ∃ e ∈ h.nodes, e.key = k) := by
  have hI := syncInv_reachable hr
  refine ⟨rfl, rfl, ?_⟩
  unfold SortedHash.includeQ
  constructor
  · intro hsome
    rcases Option.isSome_iff_exists.1 hsome with ⟨s, hs⟩
    rcases hI.syncF _ (hashFind_eq_some_mem hs) with ⟨e, he, hk, _⟩
    exact ⟨e, he, hk⟩
  · rintro ⟨e, he, rfl⟩
    exact hashFind_isSome_of_mem (hI.syncB e he)

/-- Witness for C10 on a small reachable two-entry map, probing a present
key. -/
theorem claim_C10_witness :
    Reachable natCmp ((SortedHash.empty.set natCmp 1 5).set natCmp 2 7)
    ∧ (((SortedHash.empty.set natCmp 1 5).set natCmp 2 7).hasKeyQ 2 =
        ((SortedHash.empty.set natCmp 1 5).set natCmp 2 7).includeQ 2
      ∧ ((SortedHash.empty.set natCmp 1 5).set natCmp 2 7).keyQ 2 =
        ((SortedHash.empty.set natCmp 1 5).set natCmp 2 7).includeQ 2
      ∧ (((SortedHash.empty.set natCmp 1 5).set natCmp 2 7).includeQ 2 = true ↔
          ∃ e ∈ ((SortedHash.empty.set natCmp 1 5).set natCmp 2 7).nodes, e.key = 2)) :=
  ⟨Reachable.set 2 7 (Reachable.set 1 5 Reachable.empty),
    claim_C10 natCmp ((SortedHash.empty.set natCmp 1 5).set natCmp 2 7)
      (Reachable.set 2 7 (Reachable.set 1 5 Reachable.empty)) 2⟩

/-- Claim C2: on every reachable map state no two live entries share a key,
the order index and hash index have equal cardinality, and every entry of
either index is registered in the other — no state has an entry in one
index only. -/
theorem claim_C2 {κ α : Type} [DecidableEq κ] (cmp : α → α → Ordering)
    (h : SortedHash κ α) (hr : Reachable cmp h) :
    (h.nodes.map Entry.key).Nodup
    ∧ h.length = h.hashIndex.length
    ∧ (∀ e ∈ h.nodes, (e.key, e.seq) ∈ h.hashIndex)
    ∧ (∀ q ∈ h.hashIndex, ∃ e ∈ h.nodes, e.key = q.1 ∧ e.seq = q.2) := by
  have hI := syncInv_reachable hr
  exact ⟨hI.keysNodup, hI.len.symm, hI.syncB, hI.syncF⟩

/-- Witness for C2 on a reachable map built by two sets, an update and a
delete. -/
theorem claim_C2_witness :
    Reachable natCmp ((((SortedHash.empty.set natCmp 1 5).set natCmp 2 1).set
        natCmp 1 4).delete 2).2
    ∧ (((((((SortedHash.empty.set natCmp 1 5).set natCmp 2 1).set
          natCmp 1 4).delete 2).2).nodes.map Entry.key).Nodup
      ∧ (((((SortedHash.empty.set natCmp 1 5).set natCmp 2 1).set
          natCmp 1 4).delete 2).2).length =
        (((((SortedHash.empty.set natCmp 1 5).set natCmp 2 1).set
          natCmp 1 4).delete 2).2).hashIndex.length
      ∧ (∀ e ∈ (((((SortedHash.empty.set natCmp 1 5).set natCmp 2 1).set
          natCmp 1 4).delete 2).2).nodes,
          (e.key, e.seq) ∈ (((((SortedHash.empty.set natCmp 1 5).set natCmp 2 1).set
            natCmp 1 4).delete 2).2).hashIndex)
      ∧ (∀ q ∈ (((((SortedHash.empty.set natCmp 1 5).set natCmp 2 1).set
          natCmp 1 4).delete 2).2).hashIndex,
          ∃ e ∈ (((((SortedHash.empty.set natCmp 1 5).set natCmp 2 1).set
            natCmp 1 4).delete 2).2).nodes, e.key = q.1 ∧ e.seq = q.2)) :=
  ⟨Reachable.del 2 (Reachable.set 1 4 (Reachable.set 2 1
      (Reachable.set 1 5 Reachable.empty))),
    claim_C2 natCmp _ (Reachable.del 2 (Reachable.set 1 4 (Reachable.set 2 1
      (Reachable.set 1 5 Reachable.empty))))⟩

/-- Claim C1: every reachable map's in-order traversal is non-decreasing by
the value comparator with insertion-sequence numbers breaking ties in
ascending (earliest-first) order; live sequence numbers stay below the
counter, and a set on a present key re-inserts the entry with the fresh
sequence number h.nextSeq at a position after which no comparator-equal
value remains — the updated entry moves to the end of its value tier. -/
theorem claim_C1 {κ α : Type} [DecidableEq κ] (cmp : α → α → Ordering)
    (hL : LawfulCmp cmp) (h : SortedHash κ α) (hr : Reachable cmp h) :
    h.nodes.Pairwise (entryLE cmp)
    ∧ (∀ e ∈ h.nodes, e.seq < h.nextSeq)
    ∧ ∀ k v, h.includeQ k = true →
        ∃ l₁ l₂, (h.set cmp k v).nodes = l₁ ++ (⟨k, v, h.nextSeq⟩ : Entry κ α) :: l₂
          ∧ ∀ x ∈ l₂, cmp x.value v ≠ Ordering.eq := by
  have hI := syncInv_reachable hr
  have hsorted := sorted_reachable hL hr
  refine ⟨hsorted, hI.seqLt, ?_⟩
  intro k v hinc
  rcases Option.isSome_iff_exists.1 hinc with ⟨s, hfk⟩
  have hset : h.set cmp k v =
      ⟨ordInsert cmp ⟨k, v, h.nextSeq⟩ (ordRemove s h.nodes),
       hashUpdate h.hashIndex k h.nextSeq, h.nextSeq + 1⟩ := by
    simp [SortedHash.set, hfk]
  have hfresh : ∀ x ∈ ordRemove s h.nodes, x.seq < (⟨k, v, h.nextSeq⟩ : Entry κ α).seq :=
    fun x hx => hI.seqLt x ((ordRemove_sublist s h.nodes).subset hx)
  rcases ordInsert_tier hL (hsorted.sublist (ordRemove_sublist s h.nodes)) hfresh
    with ⟨l₁, l₂, h1, h2, h3⟩
  refine ⟨l₁, l₂, ?_, ?_⟩
  · rw [hset]
    exact h1
  · intro x hx hc
    have hlt : cmp v x.value = Ordering.lt := h3 x hx
    have hgt : cmp x.value v = Ordering.gt := hL.gt_of_lt hlt
    rw [hgt] at hc
    exact Ordering.noConfusion hc

/-- Witness for C1 on a reachable map holding two comparator-equal values
under distinct keys, updating one of them. -/
theorem claim_C1_witness :
    LawfulCmp natCmp
    ∧ Reachable natCmp ((SortedHash.empty.set natCmp 1 5).set natCmp 2 5)
    ∧ (((SortedHash.empty.set natCmp 1 5).set natCmp 2 5).nodes.Pairwise (entryLE natCmp)
      ∧ (∀ e ∈ ((SortedHash.empty.set natCmp 1 5).set natCmp 2 5).nodes,
          e.seq < ((SortedHash.empty.set natCmp 1 5).set natCmp 2 5).nextSeq)
      ∧ ∀ k v, ((SortedHash.empty.set natCmp 1 5).set natCmp 2 5).includeQ k = true →
          ∃ l₁ l₂, (((SortedHash.empty.set natCmp 1 5).set natCmp 2 5).set natCmp k v).nodes
              = l₁ ++ (⟨k, v, ((SortedHash.empty.set natCmp 1 5).set
                  natCmp 2 5).nextSeq⟩ : Entry Nat Nat) :: l₂
            ∧ ∀ x ∈ l₂, natCmp x.value v ≠ Ordering.eq) :=
  ⟨lawful_natCmp, Reachable.set 2 5 (Reachable.set 1 5 Reachable.empty),
    claim_C1 natCmp lawful_natCmp ((SortedHash.empty.set natCmp 1 5).set natCmp 2 5)
      (Reachable.set 2 5 (Reachable.set 1 5 Reachable.empty))⟩

/-- Claim C5: after any sequence of set calls applied to the empty map, get
returns the value passed by the last set call for the key — none when the
key was never set — and on every reachable state get returns none for a key
just deleted. -/
theorem claim_C5 {κ α : Type} [DecidableEq κ] (cmp : α → α → Ordering)
    (ps : List (κ × α)) (k : κ) (h : SortedHash κ α) (hr : Reachable cmp h) :
    (applySets cmp SortedHash.empty ps).get k = lastValue k ps
    ∧ ((h.delete k).2).get k = none := by
  constructor
  · have hg := @get_applySets κ α _ cmp k ps SortedHash.empty syncInv_empty
    rw [hg]
    cases hl : lastValue k ps <;> rfl
  · have hI := syncInv_reachable hr
    cases hfk : hashFind h.hashIndex k with
    | none =>
      have hd : (h.delete k).2 = h := by simp [SortedHash.delete, hfk]
      rw [hd]
      simp [SortedHash.get, hfk]
    | some s =>
      have hd : (h.delete k).2 =
          ⟨ordRemove s h.nodes, hashRemove h.hashIndex k, h.nextSeq⟩ := by
        simp [SortedHash.delete, hfk]
      rw [hd]
      have hnone : hashFind (hashRemove h.hashIndex k) k = none := by
        rw [hashFind_eq_none_iff]
        intro q hq hqk
        have hmem : (k, s) ∈ h.hashIndex := hashFind_eq_some_mem hfk
        have hperm := hashRemove_perm hI.hkeysNodup hmem
        have h1 := (hperm.map Prod.fst).nodup_iff.1 hI.hkeysNodup
        rw [List.map_cons] at h1
        have h2 : ¬ k ∈ (hashRemove h.hashIndex k).map Prod.fst := (List.nodup_cons.1 h1).1
        have h3 : q.1 ∈ (hashRemove h.hashIndex k).map Prod.fst :=
          List.mem_map_of_mem Prod.fst hq
        rw [hqk] at h3
        exact h2 h3
      simp [SortedHash.get, hnone]

/-- Witness for C5 at the documented scenario: sets (1,5),(2,1),(3,16),(1,4)
from empty, probing key 1, and a delete of key 2 on a reachable map. -/
theorem claim_C5_witness :
    Reachable natCmp ((SortedHash.empty.set natCmp 1 5).set natCmp 2 1)
    ∧ ((applySets natCmp SortedHash.empty [(1, 5), (2, 1), (3, 16), (1, 4)]).get 1 =
        lastValue 1 [(1, 5), (2, 1), (3, 16), (1, 4)]
      ∧ ((((SortedHash.empty.set natCmp 1 5).set natCmp 2 1).delete 1).2).get 1 = none) :=
  ⟨Reachable.set 2 1 (Reachable.set 1 5 Reachable.empty),
    claim_C5 natCmp [(1, 5), (2, 1), (3, 16), (1, 4)] 1
      ((SortedHash.empty.set natCmp 1 5).set natCmp 2 1)
      (Reachable.set 2 1 (Reachable.set 1 5 Reachable.empty))⟩

theorem nodeFind_insert_fresh {cmp : α → α → Ordering} {l : List (Entry κ α)} {k : κ}
    {v : α} {n : Nat} (hf : ∀ x ∈ l, x.seq < n) :
    nodeFind n (ordInsert cmp ⟨k, v, n⟩ l) = some ⟨k, v, n⟩ := by
  unfold nodeFind
  apply findFirstP_eq_of_unique
  · exact (ordInsert_perm cmp _ _).mem_iff.2 (List.mem_cons_self _ _)
  · simp
  · intro y hy hpy
    have hy2 := (ordInsert_perm cmp _ _).mem_iff.1 hy
    rcases List.mem_cons.1 hy2 with rfl | hy3
    · rfl
    · exfalso
      have hseq : y.seq = n := by simpa using hpy
      have hlt := hf y hy3
      rw [hseq] at hlt
      exact Nat.lt_irrefl _ hlt

/-- Claim C7: on a reachable map with key k absent, delete(k) immediately
after set(k, v) returns v and leaves the map's length equal to its length
before the set. -/
theorem claim_C7 {κ α : Type} [DecidableEq κ] (cmp : α → α → Ordering)
    (h : SortedHash κ α) (hr : Reachable cmp h) (k : κ) (v : α)
    (habs : h.includeQ k = false) :
    ((h.set cmp k v).delete k).1 = some v
    ∧ ((h.set cmp k v).delete k).2.length = h.length := by
  have hI := syncInv_reachable hr
  cases hfk : hashFind h.hashIndex k with
  | some s =>
    exfalso
    unfold SortedHash.includeQ at habs
    rw [hfk] at habs
    simp at habs
  | none =>
    have hset : h.set cmp k v =
        ⟨ordInsert cmp ⟨k, v, h.nextSeq⟩ h.nodes, (k, h.nextSeq) :: h.hashIndex,
         h.nextSeq + 1⟩ := by
      simp [SortedHash.set, hfk]
    have hf2 : hashFind ((k, h.nextSeq) :: h.hashIndex) k = some h.nextSeq :=
      hashFind_cons_pos rfl
    have hnf : nodeFind h.nextSeq (ordInsert cmp ⟨k, v, h.nextSeq⟩ h.nodes) =
        some ⟨k, v, h.nextSeq⟩ :=
      nodeFind_insert_fresh (fun x hx => hI.seqLt x hx)
    constructor
    · rw [hset]
      simp [SortedHash.delete, hf2, hnf]
    · rw [hset]
      have hperm2 : (ordInsert cmp ⟨k, v, h.nextSeq⟩ h.nodes).Perm
          ((⟨k, v, h.nextSeq⟩ : Entry κ α) ::
            ordRemove h.nextSeq (ordInsert cmp ⟨k, v, h.nextSeq⟩ h.nodes)) :=
        removeFirstP_perm hnf
      have hpermI := ordInsert_perm cmp (⟨k, v, h.nextSeq⟩ : Entry κ α) h.nodes
      have hlen1 := hperm2.length_eq
      have hlen2 := hpermI.length_eq
      simp only [List.length_cons] at hlen1 hlen2
      simp only [SortedHash.delete, hf2, SortedHash.length]
      omega

/-- Witness for C7: setting absent key 7 on a reachable one-entry map and
deleting it again returns the value and restores the length. -/
theorem claim_C7_witness :
    Reachable natCmp (SortedHash.empty.set natCmp 1 2)
    ∧ (SortedHash.empty.set natCmp 1 2).includeQ 7 = false
    ∧ ((((SortedHash.empty.set natCmp 1 2).set natCmp 7 99).delete 7).1 = some 99
      ∧ (((SortedHash.empty.set natCmp 1 2).set natCmp 7 99).delete 7).2.length =
        (SortedHash.empty.set natCmp 1 2).length) :=
  ⟨Reachable.set 1 2 Reachable.empty, by decide,
    claim_C7 natCmp (SortedHash.empty.set natCmp 1 2)
      (Reachable.set 1 2 Reachable.empty) 7 99 (by decide)⟩

/-- Claim C6: repeatedly applying shift to a reachable map (or a set
satisfying the set invariant) drains all entries front-to-back in
non-decreasing comparator order, repeatedly applying pop drains them
back-to-front in non-increasing order, and once fully drained the container
signals empty: shift and pop return none and leave the state unchanged. -/
theorem claim_C6 {κ α β : Type} [DecidableEq κ] (cmp : α → α → Ordering)
    (hL : LawfulCmp cmp) (h : SortedHash κ α) (hr : Reachable cmp h)
    (cmp2 : β → β → Ordering) (hL2 : LawfulCmp cmp2) (t : SortedSet β)
    (ht : SetInv cmp2 t) :
    (h.drainShift.1 = h.toList
      ∧ (h.drainShift.1.map Prod.snd).Pairwise (fun a b => cmp a b ≠ Ordering.gt)
      ∧ h.drainShift.2.shift = (none, h.drainShift.2))
    ∧ (h.drainPop.1 = h.toList.reverse
      ∧ (h.drainPop.1.map Prod.snd).Pairwise (fun a b => cmp a b ≠ Ordering.lt)
      ∧ h.drainPop.2.pop = (none, h.drainPop.2))
    ∧ (t.drainShift.1 = t.toList
      ∧ t.drainShift.1.Pairwise (fun a b => cmp2 a b ≠ Ordering.gt)
      ∧ t.drainShift.2.shift = (none, t.drainShift.2))
    ∧ (t.drainPop.1 = t.toList.reverse
      ∧ t.drainPop.1.Pairwise (fun a b => cmp2 a b ≠ Ordering.lt)
      ∧ t.drainPop.2.pop = (none, t.drainPop.2)) := by
  have hsorted := sorted_reachable hL hr
  have hds := drainShift_spec h
  have hdp := drainPop_spec h
  have hts := setDrainShift_spec t
  have htp := setDrainPop_spec t
  refine ⟨⟨hds.1, ?_, shift_of_nil hds.2⟩, ⟨hdp.1, ?_, pop_of_nil hdp.2⟩,
    ⟨hts.1, ?_, setShift_of_nil hts.2⟩, ⟨htp.1, ?_, setPop_of_nil htp.2⟩⟩
  · rw [hds.1, toList_snd]
    exact pairwise_value_of_sorted hsorted
  · rw [hdp.1, List.map_reverse, toList_snd]
    exact pairwise_value_rev_of_sorted hL hsorted
  · rw [hts.1]
    exact pairwise_value_of_sorted ht.sorted
  · rw [htp.1]
    exact pairwise_value_rev_of_sorted hL2 ht.sorted

/-- Witness for C6 at the documented scenario: the two-entry map built from
(1,2) and (2,10), where shift returns (1,2), a subsequent pop returns
(2,10) and the container is then empty, together with the set [1,2]. -/
theorem claim_C6_witness :
    LawfulCmp natCmp
    ∧ Reachable natCmp ((SortedHash.empty.set natCmp 1 2).set natCmp 2 10)
    ∧ SetInv natCmp (SortedSet.fromList natCmp [1, 2])
    ∧ ((SortedHash.empty.set natCmp 1 2).set natCmp 2 10).shift.1 = some (1, 2)
    ∧ ((SortedHash.empty.set natCmp 1 2).set natCmp 2 10).shift.2.pop.1 = some (2, 10)
    ∧ ((SortedHash.empty.set natCmp 1 2).set natCmp 2 10).shift.2.pop.2.emptyQ = true
    ∧ ((((SortedHash.empty.set natCmp 1 2).set natCmp 2 10).drainShift.1 =
          ((SortedHash.empty.set natCmp 1 2).set natCmp 2 10).toList
        ∧ (((SortedHash.empty.set natCmp 1 2).set natCmp 2 10).drainShift.1.map
            Prod.snd).Pairwise (fun a b => natCmp a b ≠ Ordering.gt)
        ∧ ((SortedHash.empty.set natCmp 1 2).set natCmp 2 10).drainShift.2.shift =
          (none, ((SortedHash.empty.set natCmp 1 2).set natCmp 2 10).drainShift.2))
      ∧ (((SortedHash.empty.set natCmp 1 2).set natCmp 2 10).drainPop.1 =
          ((SortedHash.empty.set natCmp 1 2).set natCmp 2 10).toList.reverse
        ∧ (((SortedHash.empty.set natCmp 1 2).set natCmp 2 10).drainPop.1.map
            Prod.snd).Pairwise (fun a b => natCmp a b ≠ Ordering.lt)
        ∧ ((SortedHash.empty.set natCmp 1 2).set natCmp 2 10).drainPop.2.pop =
          (none, ((SortedHash.empty.set natCmp 1 2).set natCmp 2 10).drainPop.2))
      ∧ ((SortedSet.fromList natCmp [1, 2]).drainShift.1 =
          (SortedSet.fromList natCmp [1, 2]).toList
        ∧ (SortedSet.fromList natCmp [1, 2]).drainShift.1.Pairwise
            (fun a b => natCmp a b ≠ Ordering.gt)
        ∧ (SortedSet.fromList natCmp [1, 2]).drainShift.2.shift =
          (none, (SortedSet.fromList natCmp [1, 2]).drainShift.2))
      ∧ ((SortedSet.fromList natCmp [1, 2]).drainPop.1 =
          (SortedSet.fromList natCmp [1, 2]).toList.reverse
        ∧ (SortedSet.fromList natCmp [1, 2]).drainPop.1.Pairwise
            (fun a b => natCmp a b ≠ Ordering.lt)
        ∧ (SortedSet.fromList natCmp [1, 2]).drainPop.2.pop =
          (none, (SortedSet.fromList natCmp [1, 2]).drainPop.2))) :=
  ⟨lawful_natCmp, Reachable.set 2 10 (Reachable.set 1 2 Reachable.empty),
    setInv_fromList lawful_natCmp [1, 2], rfl, rfl, rfl,
    claim_C6 natCmp lawful_natCmp ((SortedHash.empty.set natCmp 1 2).set natCmp 2 10)
      (Reachable.set 2 10 (Reachable.set 1 2 Reachable.empty))
      natCmp lawful_natCmp (SortedSet.fromList natCmp [1, 2])
      (setInv_fromList lawful_natCmp [1, 2])⟩

end RbLovely
